import Mathlib

/-!
Shallow embedding of the cipher
engine of the security-project repository (Caesar, Affine, Monoalphabetic
and AES ciphers, their validators, the algorithm registry and the pipeline
composer of ProcessVisualization), together with theorems settling the
frozen claims about it.

Modelling conventions:
* JS strings are `List Char`; `split('')`/`map`/`join` become `List.map`
  (or `List.flatMap` where a JS callback can produce `undefined`, which
  `join` drops).
* JS numbers holding integers are `Int` where the source can go negative
  (shift keys, affine coefficients) and `Nat` for byte values; the JS `%`
  operator on integers is `Int.tmod` (truncated remainder, sign of the
  dividend).
* `Uint8Array` is `List Nat` with every element < 256.
* A thrown exception is the `Except.error` branch; functions that catch
  internally and return sentinel text are total and return that text.
-/

set_option maxRecDepth 16384

/-! ### Generic XOR helpers -/

theorem xorLeftComm (a b c : Nat) : a ^^^ (b ^^^ c) = b ^^^ (a ^^^ c) := by
  rw [← Nat.xor_assoc, Nat.xor_comm a b, Nat.xor_assoc]

theorem xorCancelLeft (a b : Nat) : a ^^^ (a ^^^ b) = b := by
  rw [← Nat.xor_assoc, Nat.xor_self, Nat.zero_xor]

theorem xorCancelRight (a b : Nat) : a ^^^ b ^^^ b = a := by
  rw [Nat.xor_assoc, Nat.xor_self, Nat.xor_zero]

/-! ### The recursive gcd helper

Both affineCipher.ts helpers inline
`const gcd = (x, y) => (y === 0 ? x : gcd(y, x % y))` over JS numbers.
`gcdJS` embeds it; the fuel argument of `gcdAux` only realises the
recursion (any fuel above `natAbs y` computes the same value, and
`gcdJS_eq` recovers the literal JS recursion equation). -/

theorem natAbs_tmod (a b : Int) : (a.tmod b).natAbs = a.natAbs % b.natAbs := by
  rcases a with m | m <;> rcases b with n | n <;>
    simp only [Int.tmod, Int.natAbs_ofNat, Int.natAbs_neg, Int.natAbs_negSucc] <;> norm_cast

def gcdAux : Nat → Int → Int → Int
  | 0, x, _ => x
  | fuel + 1, x, y => if y = 0 then x else gcdAux fuel y (x.tmod y)

def gcdJS (x y : Int) : Int := gcdAux (y.natAbs + 1) x y

theorem gcdAux_fuel : ∀ (f g : Nat) (x y : Int), y.natAbs < f → y.natAbs < g →
    gcdAux f x y = gcdAux g x y := by
  intro f
  induction f with
  | zero => intro g x y h _; omega
  | succ n ih =>
    intro g x y hf hg
    match g, hg with
    | m + 1, _ =>
      by_cases hy : y = 0
      · subst hy; simp [gcdAux]
      · have h0 : 0 < y.natAbs := by rcases y with a | a <;> simp_all <;> omega
        have hlt : (x.tmod y).natAbs < y.natAbs := by
          rw [natAbs_tmod]; exact Nat.mod_lt _ h0
        simp only [gcdAux, hy, if_false]
        exact ih m y (x.tmod y) (by omega) (by omega)

theorem gcdJS_eq (x y : Int) : gcdJS x y = if y = 0 then x else gcdJS y (x.tmod y) := by
  by_cases hy : y = 0
  · subst hy; simp [gcdJS, gcdAux]
  · have h0 : 0 < y.natAbs := by rcases y with a | a <;> simp_all <;> omega
    have hlt : (x.tmod y).natAbs < y.natAbs := by
      rw [natAbs_tmod]; exact Nat.mod_lt _ h0
    simp only [gcdJS, gcdAux, hy, if_false]
    exact gcdAux_fuel y.natAbs ((x.tmod y).natAbs + 1) y (x.tmod y) hlt (by omega)

/-! ### Caesar cipher (caesarCipher.ts) -/

/-- Per-character body of the `map` in `caesarEncrypt`, after the shift has
been normalised to [0,26). -/
def caesarShiftChar (shift : Nat) (c : Char) : Char :=
  if 'A' ≤ c ∧ c ≤ 'Z' then Char.ofNat (((c.toNat - 65 + shift) % 26) + 65)
  else if 'a' ≤ c ∧ c ≤ 'z' then Char.ofNat (((c.toNat - 97 + shift) % 26) + 97)
  else c

/-- caesarEncrypt(text, shift): first normalises the shift with
`((shift % 26) + 26) % 26` (JS `%` = `Int.tmod`), then maps each char. -/
def caesarEncrypt (text : List Char) (shift : Int) : List Char :=
  let s := (((shift.tmod 26) + 26).tmod 26).toNat
  text.map (caesarShiftChar s)

/-- caesarDecrypt(text, shift) = caesarEncrypt(text, 26 - (shift % 26)). -/
def caesarDecrypt (text : List Char) (shift : Int) : List Char :=
  caesarEncrypt text (26 - shift.tmod 26)

/-- validateCaesarKey: integer in [0,25] (integrality holds by typing). -/
def validateCaesarKey (key : Int) : Bool := 0 ≤ key && key ≤ 25

/-! ### Affine cipher (affineCipher.ts, src/unnamed/part_004) -/

/-- Linear search of `modInverse`: first i in [1,m) with (a*i) % m == 1,
returning 1 when the loop falls through. -/
def modInverseSearch (a m : Int) : Int :=
  match (List.range' 1 (m.toNat - 1)).find? (fun i => (a * (i : Int)).tmod m == 1) with
  | some i => (i : Int)
  | none => 1

/-- modInverse(a, m): throws when gcd(a,m) is not 1, else the linear search. -/
def modInverse (a m : Int) : Except String Int :=
  if gcdJS a m ≠ 1 then
    .error (toString a ++ " and " ++ toString m ++ " are not coprime")
  else
    .ok (modInverseSearch a m)

/-- Per-character body of the `map` in `affineEncrypt`. -/
def affineEncryptChar (a b : Int) (c : Char) : Char :=
  if 'A' ≤ c ∧ c ≤ 'Z' then
    Char.ofNat (((a * ((c.toNat : Int) - 65) + b).tmod 26).toNat + 65)
  else if 'a' ≤ c ∧ c ≤ 'z' then
    Char.ofNat (((a * ((c.toNat : Int) - 97) + b).tmod 26).toNat + 97)
  else c

/-- affineEncrypt: throws when a is not coprime with 26, else maps chars. -/
def affineEncrypt (text : List Char) (a b : Int) : Except String (List Char) :=
  if gcdJS a 26 ≠ 1 then .error "The value of \x22a\x22 must be coprime with 26"
  else .ok (text.map (affineEncryptChar a b))

/-- Per-character body of the `map` in `affineDecrypt` (aInverse already found). -/
def affineDecryptChar (aInverse b : Int) (c : Char) : Char :=
  if 'A' ≤ c ∧ c ≤ 'Z' then
    Char.ofNat (((aInverse * (((c.toNat : Int) - 65) - b + 26)).tmod 26).toNat + 65)
  else if 'a' ≤ c ∧ c ≤ 'z' then
    Char.ofNat (((aInverse * (((c.toNat : Int) - 97) - b + 26)).tmod 26).toNat + 97)
  else c

/-- affineDecrypt: catches the `modInverse` throw and returns the message as
in-band text ("Error: " + message); on success maps chars. Total. -/
def affineDecrypt (text : List Char) (a b : Int) : List Char :=
  match modInverse a 26 with
  | .error msg => ("Error: " ++ msg).data
  | .ok aInverse => text.map (affineDecryptChar aInverse b)

/-- validateAffineKey: integers (by typing), a in [1,25], b in [0,25], and
gcd(a,26) == 1. -/
def validateAffineKey (a b : Int) : Bool :=
  if a < 1 || 25 < a || b < 0 || 25 < b then false
  else gcdJS a 26 == 1

/-! ### Monoalphabetic substitution cipher (monoalphabeticCipher.ts) -/

def ALPHABET : List Char := "ABCDEFGHIJKLMNOPQRSTUVWXYZ".data

/-- Loop of `validateMonoalphabeticKey`: walks the key accumulating the set
of letters seen so far (the `letterCount` record); fails on a non-letter or
a repeat. -/
def monoCheckLoop : List Char → List Char → Option (List Char)
  | [], seen => some seen
  | c :: rest, seen =>
    if ¬('A' ≤ c ∧ c ≤ 'Z') then none
    else if seen.contains c then none
    else monoCheckLoop rest (c :: seen)

/-- validateMonoalphabeticKey: uppercase the key, require length 26, all
distinct letters, and finally 26 distinct keys in the count record. -/
def validateMonoalphabeticKey (key : List Char) : Bool :=
  if (key.map Char.toUpper).length ≠ 26 then false
  else
    match monoCheckLoop (key.map Char.toUpper) [] with
    | none => false
    | some seen => seen.length == 26

/-- Per-character body of the `map` in `monoalphabeticEncrypt` (k is the
uppercased key). -/
def monoEncChar (k : List Char) (c : Char) : Char :=
  if 'A' ≤ c ∧ c ≤ 'Z' then k.getD (ALPHABET.indexOf c) (Char.ofNat 0)
  else if 'a' ≤ c ∧ c ≤ 'z' then (k.getD (ALPHABET.indexOf c.toUpper) (Char.ofNat 0)).toLower
  else c

/-- monoalphabeticEncrypt: uppercases the key, re-validates it at the point
of execution (throwing before transforming anything), then maps chars. -/
def monoalphabeticEncrypt (text : List Char) (key : List Char) : Except String (List Char) :=
  if ¬validateMonoalphabeticKey (key.map Char.toUpper) then .error "Invalid substitution key"
  else .ok (text.map (monoEncChar (key.map Char.toUpper)))

/-- Per-character body of `monoalphabeticDecrypt`. A letter absent from the
key makes `key.indexOf` return -1 in JS, so `ALPHABET[-1]` is `undefined`
and `join('')` drops it; hence the `List Char` (possibly empty) result. -/
def monoDecChar (k : List Char) (c : Char) : List Char :=
  if 'A' ≤ c ∧ c ≤ 'Z' then
    if c ∈ k then [ALPHABET.getD (k.indexOf c) (Char.ofNat 0)] else []
  else if 'a' ≤ c ∧ c ≤ 'z' then
    if c.toUpper ∈ k then [(ALPHABET.getD (k.indexOf c.toUpper) (Char.ofNat 0)).toLower] else []
  else [c]

/-- monoalphabeticDecrypt: uppercases the key, re-validates it at the point
of execution, then maps chars through the inverse lookup. -/
def monoalphabeticDecrypt (text : List Char) (key : List Char) : Except String (List Char) :=
  if ¬validateMonoalphabeticKey (key.map Char.toUpper) then .error "Invalid substitution key"
  else .ok (text.flatMap (monoDecChar (key.map Char.toUpper)))

example : caesarEncrypt "ABC".data 3 = "DEF".data := by decide
example : caesarEncrypt "Hello, World!".data 3 = "Khoor, Zruog!".data := by decide
example : affineEncrypt "HELLO".data 5 8 = .ok "RCLLA".data := by rfl
example : validateAffineKey 4 1 = false := by decide
example : validateAffineKey 5 8 = true := by decide
example : validateMonoalphabeticKey "QWERTYUIOPASDFGHJKLZXCVBNM".data = true := by decide
example : monoalphabeticEncrypt "AB".data "QWERTYUIOPASDFGHJKLZXCVBNM".data
    = .ok "QW".data := by rfl

/-! ### AES lookup tables (aesCipher.ts) -/

/-- AES S-box table (SBOX). -/
def SBOX : List Nat := [
  0x63, 0x7c, 0x77, 0x7b, 0xf2, 0x6b, 0x6f, 0xc5, 0x30, 0x01, 0x67, 0x2b, 0xfe, 0xd7, 0xab, 0x76,
  0xca, 0x82, 0xc9, 0x7d, 0xfa, 0x59, 0x47, 0xf0, 0xad, 0xd4, 0xa2, 0xaf, 0x9c, 0xa4, 0x72, 0xc0,
  0xb7, 0xfd, 0x93, 0x26, 0x36, 0x3f, 0xf7, 0xcc, 0x34, 0xa5, 0xe5, 0xf1, 0x71, 0xd8, 0x31, 0x15,
  0x04, 0xc7, 0x23, 0xc3, 0x18, 0x96, 0x05, 0x9a, 0x07, 0x12, 0x80, 0xe2, 0xeb, 0x27, 0xb2, 0x75,
  0x09, 0x83, 0x2c, 0x1a, 0x1b, 0x6e, 0x5a, 0xa0, 0x52, 0x3b, 0xd6, 0xb3, 0x29, 0xe3, 0x2f, 0x84,
  0x53, 0xd1, 0x00, 0xed, 0x20, 0xfc, 0xb1, 0x5b, 0x6a, 0xcb, 0xbe, 0x39, 0x4a, 0x4c, 0x58, 0xcf,
  0xd0, 0xef, 0xaa, 0xfb, 0x43, 0x4d, 0x33, 0x85, 0x45, 0xf9, 0x02, 0x7f, 0x50, 0x3c, 0x9f, 0xa8,
  0x51, 0xa3, 0x40, 0x8f, 0x92, 0x9d, 0x38, 0xf5, 0xbc, 0xb6, 0xda, 0x21, 0x10, 0xff, 0xf3, 0xd2,
  0xcd, 0x0c, 0x13, 0xec, 0x5f, 0x97, 0x44, 0x17, 0xc4, 0xa7, 0x7e, 0x3d, 0x64, 0x5d, 0x19, 0x73,
  0x60, 0x81, 0x4f, 0xdc, 0x22, 0x2a, 0x90, 0x88, 0x46, 0xee, 0xb8, 0x14, 0xde, 0x5e, 0x0b, 0xdb,
  0xe0, 0x32, 0x3a, 0x0a, 0x49, 0x06, 0x24, 0x5c, 0xc2, 0xd3, 0xac, 0x62, 0x91, 0x95, 0xe4, 0x79,
  0xe7, 0xc8, 0x37, 0x6d, 0x8d, 0xd5, 0x4e, 0xa9, 0x6c, 0x56, 0xf4, 0xea, 0x65, 0x7a, 0xae, 0x08,
  0xba, 0x78, 0x25, 0x2e, 0x1c, 0xa6, 0xb4, 0xc6, 0xe8, 0xdd, 0x74, 0x1f, 0x4b, 0xbd, 0x8b, 0x8a,
  0x70, 0x3e, 0xb5, 0x66, 0x48, 0x03, 0xf6, 0x0e, 0x61, 0x35, 0x57, 0xb9, 0x86, 0xc1, 0x1d, 0x9e,
  0xe1, 0xf8, 0x98, 0x11, 0x69, 0xd9, 0x8e, 0x94, 0x9b, 0x1e, 0x87, 0xe9, 0xce, 0x55, 0x28, 0xdf,
  0x8c, 0xa1, 0x89, 0x0d, 0xbf, 0xe6, 0x42, 0x68, 0x41, 0x99, 0x2d, 0x0f, 0xb0, 0x54, 0xbb, 0x16]

/-- AES inverse S-box table (INV_SBOX). -/
def INV_SBOX : List Nat := [
  0x52, 0x09, 0x6a, 0xd5, 0x30, 0x36, 0xa5, 0x38, 0xbf, 0x40, 0xa3, 0x9e, 0x81, 0xf3, 0xd7, 0xfb,
  0x7c, 0xe3, 0x39, 0x82, 0x9b, 0x2f, 0xff, 0x87, 0x34, 0x8e, 0x43, 0x44, 0xc4, 0xde, 0xe9, 0xcb,
  0x54, 0x7b, 0x94, 0x32, 0xa6, 0xc2, 0x23, 0x3d, 0xee, 0x4c, 0x95, 0x0b, 0x42, 0xfa, 0xc3, 0x4e,
  0x08, 0x2e, 0xa1, 0x66, 0x28, 0xd9, 0x24, 0xb2, 0x76, 0x5b, 0xa2, 0x49, 0x6d, 0x8b, 0xd1, 0x25,
  0x72, 0xf8, 0xf6, 0x64, 0x86, 0x68, 0x98, 0x16, 0xd4, 0xa4, 0x5c, 0xcc, 0x5d, 0x65, 0xb6, 0x92,
  0x6c, 0x70, 0x48, 0x50, 0xfd, 0xed, 0xb9, 0xda, 0x5e, 0x15, 0x46, 0x57, 0xa7, 0x8d, 0x9d, 0x84,
  0x90, 0xd8, 0xab, 0x00, 0x8c, 0xbc, 0xd3, 0x0a, 0xf7, 0xe4, 0x58, 0x05, 0xb8, 0xb3, 0x45, 0x06,
  0xd0, 0x2c, 0x1e, 0x8f, 0xca, 0x3f, 0x0f, 0x02, 0xc1, 0xaf, 0xbd, 0x03, 0x01, 0x13, 0x8a, 0x6b,
  0x3a, 0x91, 0x11, 0x41, 0x4f, 0x67, 0xdc, 0xea, 0x97, 0xf2, 0xcf, 0xce, 0xf0, 0xb4, 0xe6, 0x73,
  0x96, 0xac, 0x74, 0x22, 0xe7, 0xad, 0x35, 0x85, 0xe2, 0xf9, 0x37, 0xe8, 0x1c, 0x75, 0xdf, 0x6e,
  0x47, 0xf1, 0x1a, 0x71, 0x1d, 0x29, 0xc5, 0x89, 0x6f, 0xb7, 0x62, 0x0e, 0xaa, 0x18, 0xbe, 0x1b,
  0xfc, 0x56, 0x3e, 0x4b, 0xc6, 0xd2, 0x79, 0x20, 0x9a, 0xdb, 0xc0, 0xfe, 0x78, 0xcd, 0x5a, 0xf4,
  0x1f, 0xdd, 0xa8, 0x33, 0x88, 0x07, 0xc7, 0x31, 0xb1, 0x12, 0x10, 0x59, 0x27, 0x80, 0xec, 0x5f,
  0x60, 0x51, 0x7f, 0xa9, 0x19, 0xb5, 0x4a, 0x0d, 0x2d, 0xe5, 0x7a, 0x9f, 0x93, 0xc9, 0x9c, 0xef,
  0xa0, 0xe0, 0x3b, 0x4d, 0xae, 0x2a, 0xf5, 0xb0, 0xc8, 0xeb, 0xbb, 0x3c, 0x83, 0x53, 0x99, 0x61,
  0x17, 0x2b, 0x04, 0x7e, 0xba, 0x77, 0xd6, 0x26, 0xe1, 0x69, 0x14, 0x63, 0x55, 0x21, 0x0c, 0x7d]

/-- AES round constants (RCON). -/
def RCON : List Nat :=
  [0x01, 0x02, 0x04, 0x08, 0x10, 0x20, 0x40, 0x80, 0x1b, 0x36, 0x6c, 0xd8, 0xab, 0x4d, 0x9a, 0x2f]

/-- Table lookup, `SBOX[n]` (Uint8Array indexing; reads in range only). -/
def sbox (n : Nat) : Nat := SBOX.getD n 0

def invSbox (n : Nat) : Nat := INV_SBOX.getD n 0

def rcon (n : Nat) : Nat := RCON.getD n 0

/-! ### AES state and round transforms -/

/-- The 16-byte AES state / block, in the flat array order of the source
(index 4*col + row, columns stored consecutively). -/
structure Block where
  (b0 b1 b2 b3 b4 b5 b6 b7 b8 b9 b10 b11 b12 b13 b14 b15 : Nat)
deriving DecidableEq, Repr

/-- All sixteen state bytes are bytes. -/
def BlockValid (s : Block) : Prop :=
  s.b0 < 256 ∧ s.b1 < 256 ∧ s.b2 < 256 ∧ s.b3 < 256 ∧
  s.b4 < 256 ∧ s.b5 < 256 ∧ s.b6 < 256 ∧ s.b7 < 256 ∧
  s.b8 < 256 ∧ s.b9 < 256 ∧ s.b10 < 256 ∧ s.b11 < 256 ∧
  s.b12 < 256 ∧ s.b13 < 256 ∧ s.b14 < 256 ∧ s.b15 < 256

instance (s : Block) : Decidable (BlockValid s) := by
  unfold BlockValid; infer_instance

def subBytes (s : Block) : Block :=
  ⟨sbox s.b0, sbox s.b1, sbox s.b2, sbox s.b3, sbox s.b4, sbox s.b5, sbox s.b6, sbox s.b7,
   sbox s.b8, sbox s.b9, sbox s.b10, sbox s.b11, sbox s.b12, sbox s.b13, sbox s.b14, sbox s.b15⟩

def invSubBytes (s : Block) : Block :=
  ⟨invSbox s.b0, invSbox s.b1, invSbox s.b2, invSbox s.b3, invSbox s.b4, invSbox s.b5,
   invSbox s.b6, invSbox s.b7, invSbox s.b8, invSbox s.b9, invSbox s.b10, invSbox s.b11,
   invSbox s.b12, invSbox s.b13, invSbox s.b14, invSbox s.b15⟩

/-- shiftRows: row r (indices r, r+4, r+8, r+12) rotated left by r. -/
def shiftRows (s : Block) : Block :=
  ⟨s.b0, s.b5, s.b10, s.b15, s.b4, s.b9, s.b14, s.b3,
   s.b8, s.b13, s.b2, s.b7, s.b12, s.b1, s.b6, s.b11⟩

/-- invShiftRows: row r rotated right by r. -/
def invShiftRows (s : Block) : Block :=
  ⟨s.b0, s.b13, s.b10, s.b7, s.b4, s.b1, s.b14, s.b11,
   s.b8, s.b5, s.b2, s.b15, s.b12, s.b9, s.b6, s.b3⟩

/-- One iteration of the gmul loop on the running factor a: shift left, and
reduce by 0x1B when the high bit (of the pre-shift value) was set. The
source never masks a to 8 bits inside the loop; neither do we. -/
def gmulStepA (a : Nat) : Nat :=
  if a &&& 0x80 ≠ 0 then (a <<< 1) ^^^ 0x1B else a <<< 1

/-- The 8-iteration gmul loop; p is the accumulator, the first argument the
remaining iteration count. -/
def gmulAux : Nat → Nat → Nat → Nat → Nat
  | 0, _, _, p => p
  | n + 1, a, b, p =>
      gmulAux n (gmulStepA a) (b >>> 1) (if b &&& 1 ≠ 0 then p ^^^ a else p)

/-- gmul(a,b): Galois-field multiply as implemented (loop, then `& 0xFF`). -/
def gmul (a b : Nat) : Nat := gmulAux 8 a b 0 &&& 0xFF

/-- One column of mixColumns, in the source's left-associated XOR order. -/
def mixColumn (t0 t1 t2 t3 : Nat) : Nat × Nat × Nat × Nat :=
  (gmul 2 t0 ^^^ gmul 3 t1 ^^^ t2 ^^^ t3,
   t0 ^^^ gmul 2 t1 ^^^ gmul 3 t2 ^^^ t3,
   t0 ^^^ t1 ^^^ gmul 2 t2 ^^^ gmul 3 t3,
   gmul 3 t0 ^^^ t1 ^^^ t2 ^^^ gmul 2 t3)

/-- One column of invMixColumns. -/
def invMixColumn (t0 t1 t2 t3 : Nat) : Nat × Nat × Nat × Nat :=
  (gmul 14 t0 ^^^ gmul 11 t1 ^^^ gmul 13 t2 ^^^ gmul 9 t3,
   gmul 9 t0 ^^^ gmul 14 t1 ^^^ gmul 11 t2 ^^^ gmul 13 t3,
   gmul 13 t0 ^^^ gmul 9 t1 ^^^ gmul 14 t2 ^^^ gmul 11 t3,
   gmul 11 t0 ^^^ gmul 13 t1 ^^^ gmul 9 t2 ^^^ gmul 14 t3)

def mixColumns (s : Block) : Block :=
  let c0 := mixColumn s.b0 s.b1 s.b2 s.b3
  let c1 := mixColumn s.b4 s.b5 s.b6 s.b7
  let c2 := mixColumn s.b8 s.b9 s.b10 s.b11
  let c3 := mixColumn s.b12 s.b13 s.b14 s.b15
  ⟨c0.1, c0.2.1, c0.2.2.1, c0.2.2.2, c1.1, c1.2.1, c1.2.2.1, c1.2.2.2,
   c2.1, c2.2.1, c2.2.2.1, c2.2.2.2, c3.1, c3.2.1, c3.2.2.1, c3.2.2.2⟩

def invMixColumns (s : Block) : Block :=
  let c0 := invMixColumn s.b0 s.b1 s.b2 s.b3
  let c1 := invMixColumn s.b4 s.b5 s.b6 s.b7
  let c2 := invMixColumn s.b8 s.b9 s.b10 s.b11
  let c3 := invMixColumn s.b12 s.b13 s.b14 s.b15
  ⟨c0.1, c0.2.1, c0.2.2.1, c0.2.2.2, c1.1, c1.2.1, c1.2.2.1, c1.2.2.2,
   c2.1, c2.2.1, c2.2.2.1, c2.2.2.2, c3.1, c3.2.1, c3.2.2.1, c3.2.2.2⟩

def addRoundKey (s k : Block) : Block :=
  ⟨s.b0 ^^^ k.b0, s.b1 ^^^ k.b1, s.b2 ^^^ k.b2, s.b3 ^^^ k.b3,
   s.b4 ^^^ k.b4, s.b5 ^^^ k.b5, s.b6 ^^^ k.b6, s.b7 ^^^ k.b7,
   s.b8 ^^^ k.b8, s.b9 ^^^ k.b9, s.b10 ^^^ k.b10, s.b11 ^^^ k.b11,
   s.b12 ^^^ k.b12, s.b13 ^^^ k.b13, s.b14 ^^^ k.b14, s.b15 ^^^ k.b15⟩

/-! ### Key expansion -/

structure KeyParams where
  (keySize nk nr : Nat)
deriving DecidableEq, Repr

/-- getKeyParams: key length 16/24/32 bytes, anything else throws. -/
def getKeyParams (keyLength : Nat) : Except String KeyParams :=
  match keyLength with
  | 16 => .ok ⟨128, 4, 10⟩
  | 24 => .ok ⟨192, 6, 12⟩
  | 32 => .ok ⟨256, 8, 14⟩
  | _ => .error "Invalid key length. Must be 16, 24, or 32 bytes (128, 192, or 256 bits)."

/-- One 4-byte word of the expanded key. -/
structure Word where
  (w0 w1 w2 w3 : Nat)
deriving DecidableEq, Repr

def WordValid (w : Word) : Prop := w.w0 < 256 ∧ w.w1 < 256 ∧ w.w2 < 256 ∧ w.w3 < 256

instance (w : Word) : Decidable (WordValid w) := by
  unfold WordValid; infer_instance

def rotWord (w : Word) : Word := ⟨w.w1, w.w2, w.w3, w.w0⟩

def subWord (w : Word) : Word := ⟨sbox w.w0, sbox w.w1, sbox w.w2, sbox w.w3⟩

def xorWord (a b : Word) : Word :=
  ⟨a.w0 ^^^ b.w0, a.w1 ^^^ b.w1, a.w2 ^^^ b.w2, a.w3 ^^^ b.w3⟩

/-- The raw key bytes grouped into 4-byte words (the initial copy of the
key into expandedKey). -/
def keyWords : List Nat → List Word
  | a :: b :: c :: d :: rest => ⟨a, b, c, d⟩ :: keyWords rest
  | _ => []

/-- Word i of the expanded key from the words built so far: previous word,
rotate/substitute/Rcon when i is a multiple of nk, extra SubWord for
256-bit keys when i mod nk = 4, then XOR with the word nk back. -/
def nextWord (nk : Nat) (ws : List Word) : Word :=
  let i := ws.length
  let temp := ws.getD (i - 1) ⟨0, 0, 0, 0⟩
  let t :=
    if i % nk = 0 then
      let r := subWord (rotWord temp)
      ⟨r.w0 ^^^ rcon (i / nk - 1), r.w1, r.w2, r.w3⟩
    else if 6 < nk ∧ i % nk = 4 then subWord temp
    else temp
  xorWord (ws.getD (i - nk) ⟨0, 0, 0, 0⟩) t

/-- The key-expansion loop: append the given number of further words. -/
def expandWords (nk : Nat) (ws : List Word) : Nat → List Word
  | 0 => ws
  | n + 1 => expandWords nk (ws ++ [nextWord nk ws]) n

/-- Expanded-key words regrouped into 16-byte round keys. -/
def blocksOfWords : List Word → List Block
  | a :: b :: c :: d :: rest =>
      ⟨a.w0, a.w1, a.w2, a.w3, b.w0, b.w1, b.w2, b.w3,
       c.w0, c.w1, c.w2, c.w3, d.w0, d.w1, d.w2, d.w3⟩ :: blocksOfWords rest
  | _ => []

/-- keyExpansion: the (nr+1) round keys derived from the raw key. -/
def keyExpansion (key : List Nat) (params : KeyParams) : List Block :=
  blocksOfWords (expandWords params.nk (keyWords key) ((params.nr + 1) * 4 - params.nk))

/-! ### Block encrypt / decrypt -/

/-- The encryption round loop over the round keys after round key 0: a full
round (SubBytes, ShiftRows, MixColumns, AddRoundKey) for every key except
the last, which gets the final round without MixColumns. -/
def encRounds : Block → List Block → Block
  | s, [] => s
  | s, [k] => addRoundKey (shiftRows (subBytes s)) k
  | s, k :: ks => encRounds (addRoundKey (mixColumns (shiftRows (subBytes s))) k) ks

/-- The decryption round loop over round keys nr-1, nr-2, ...: InvShiftRows,
InvSubBytes, AddRoundKey, InvMixColumns for every key except the last
(round key 0), which gets the final round without InvMixColumns. -/
def decRounds : Block → List Block → Block
  | s, [] => s
  | s, [k] => addRoundKey (invSubBytes (invShiftRows s)) k
  | s, k :: ks => decRounds (invMixColumns (addRoundKey (invSubBytes (invShiftRows s)) k)) ks

/-- Block encryption given the expanded round keys: AddRoundKey with round
key 0, then the round loop. -/
def encryptWithKeys (p : Block) : List Block → Block
  | [] => p
  | k0 :: rest => encRounds (addRoundKey p k0) rest

/-- Block decryption given the expanded round keys: AddRoundKey with the
last round key, then the rounds in descending order. -/
def decryptWithKeys (c : Block) (rks : List Block) : Block :=
  match rks.reverse with
  | [] => c
  | kn :: rest => decRounds (addRoundKey c kn) rest

/-- aesEncryptBlock (the 16-byte shape of the plaintext is enforced by the
Block type; the source throws on other lengths). -/
def aesEncryptBlock (p : Block) (key : List Nat) : Except String Block := do
  let params ← getKeyParams key.length
  .ok (encryptWithKeys p (keyExpansion key params))

/-- aesDecryptBlock. -/
def aesDecryptBlock (c : Block) (key : List Nat) : Except String Block := do
  let params ← getKeyParams key.length
  .ok (decryptWithKeys c (keyExpansion key params))

/-! ### Codecs (aesCipher.ts, stringToUint8Array / uint8ArrayToString /
hexToUint8Array / uint8ArrayToHex) -/

/-- UTF-8 bytes of one char (TextEncoder semantics). -/
def utf8EncodeChar (c : Char) : List Nat :=
  if c.toNat < 0x80 then [c.toNat]
  else if c.toNat < 0x800 then [0xC0 ||| (c.toNat >>> 6), 0x80 ||| (c.toNat &&& 0x3F)]
  else if c.toNat < 0x10000 then
    [0xE0 ||| (c.toNat >>> 12), 0x80 ||| ((c.toNat >>> 6) &&& 0x3F), 0x80 ||| (c.toNat &&& 0x3F)]
  else
    [0xF0 ||| (c.toNat >>> 18), 0x80 ||| ((c.toNat >>> 12) &&& 0x3F),
     0x80 ||| ((c.toNat >>> 6) &&& 0x3F), 0x80 ||| (c.toNat &&& 0x3F)]

/-- stringToUint8Array: TextEncoder().encode. -/
def stringToUint8Array (s : List Char) : List Nat := s.flatMap utf8EncodeChar

/-- uint8ArrayToString: TextDecoder('utf-8').decode, invalid sequences
becoming U+FFFD. Fuel-based so that it reduces; fuel = length suffices
since every step consumes at least one byte. -/
def utf8DecodeAux : Nat → List Nat → List Char
  | 0, _ => []
  | _, [] => []
  | fuel + 1, b :: rest =>
    if b < 0x80 then Char.ofNat b :: utf8DecodeAux fuel rest
    else if 0xC0 ≤ b ∧ b < 0xE0 then
      match rest with
      | b2 :: r2 =>
        if 0x80 ≤ b2 ∧ b2 < 0xC0 then
          Char.ofNat (((b &&& 0x1F) <<< 6) ||| (b2 &&& 0x3F)) :: utf8DecodeAux fuel r2
        else Char.ofNat 0xFFFD :: utf8DecodeAux fuel rest
      | [] => [Char.ofNat 0xFFFD]
    else if 0xE0 ≤ b ∧ b < 0xF0 then
      match rest with
      | b2 :: b3 :: r3 =>
        if (0x80 ≤ b2 ∧ b2 < 0xC0) ∧ (0x80 ≤ b3 ∧ b3 < 0xC0) then
          Char.ofNat (((b &&& 0x0F) <<< 12) ||| ((b2 &&& 0x3F) <<< 6) ||| (b3 &&& 0x3F)) ::
            utf8DecodeAux fuel r3
        else Char.ofNat 0xFFFD :: utf8DecodeAux fuel rest
      | _ => [Char.ofNat 0xFFFD]
    else if 0xF0 ≤ b ∧ b < 0xF8 then
      match rest with
      | b2 :: b3 :: b4 :: r4 =>
        if (0x80 ≤ b2 ∧ b2 < 0xC0) ∧ (0x80 ≤ b3 ∧ b3 < 0xC0) ∧ (0x80 ≤ b4 ∧ b4 < 0xC0) then
          Char.ofNat (((b &&& 0x07) <<< 18) ||| ((b2 &&& 0x3F) <<< 12) |||
              ((b3 &&& 0x3F) <<< 6) ||| (b4 &&& 0x3F)) :: utf8DecodeAux fuel r4
        else Char.ofNat 0xFFFD :: utf8DecodeAux fuel rest
      | _ => [Char.ofNat 0xFFFD]
    else Char.ofNat 0xFFFD :: utf8DecodeAux fuel rest

def uint8ArrayToString (bytes : List Nat) : List Char :=
  utf8DecodeAux bytes.length bytes

/-- Value of a hex digit char, if it is one (parseInt radix-16 accepts both
cases). -/
def hexDigitVal (c : Char) : Option Nat :=
  if '0' ≤ c ∧ c ≤ '9' then some (c.toNat - 48)
  else if 'a' ≤ c ∧ c ≤ 'f' then some (c.toNat - 97 + 10)
  else if 'A' ≤ c ∧ c ≤ 'F' then some (c.toNat - 65 + 10)
  else none

/-- parseInt(two-char-slice, 16) coerced into a Uint8Array cell: parseInt
parses the longest hex prefix (NaN when empty), and NaN stores as 0. -/
def hexPairByte (c1 c2 : Char) : Nat :=
  match hexDigitVal c1, hexDigitVal c2 with
  | some h, some l => 16 * h + l
  | some h, none => h
  | none, _ => 0

def hexPairsToBytes : List Char → List Nat
  | c1 :: c2 :: rest => hexPairByte c1 c2 :: hexPairsToBytes rest
  | _ => []

/-- hexToUint8Array: strip whitespace, require even length, parse pairs. -/
def hexToUint8Array (hexStr : List Char) : Except String (List Nat) :=
  let hex := hexStr.filter (fun c => ¬c.isWhitespace)
  if hex.length % 2 ≠ 0 then .error "Hex string must have an even number of characters"
  else .ok (hexPairsToBytes hex)

/-- Two lowercase hex digits of a byte (toString(16).padStart(2,'0')). -/
def hexDigitChar (n : Nat) : Char :=
  "0123456789abcdef".data.getD n (Char.ofNat 0)

def byteToHex (b : Nat) : List Char :=
  if b < 16 then ['0', hexDigitChar b] else [hexDigitChar (b / 16), hexDigitChar (b % 16)]

/-- uint8ArrayToHex with the default spaces=false. -/
def uint8ArrayToHex (bytes : List Nat) : List Char := bytes.flatMap byteToHex

/-! ### PKCS#7 padding and message-level AES -/

/-- padPKCS7: always appends paddingLength = 16 - (len % 16) bytes (a full
extra block when the input is already aligned), each holding that value. -/
def padPKCS7 (data : List Nat) : List Nat :=
  data ++ List.replicate (16 - data.length % 16) (16 - data.length % 16)

/-- unpadPKCS7: rejects an empty or non-block-aligned input and a declared
padding length above 16, checks the padding region, then strips. The
source has no check for a declared padding length of zero: a last byte of
0 passes and strips nothing. -/
def unpadPKCS7 (data : List Nat) : Except String (List Nat) :=
  if data.length = 0 ∨ data.length % 16 ≠ 0 then .error "Invalid padded data length"
  else if 16 < data.getD (data.length - 1) 0 then .error "Invalid padding value"
  else if (List.range' (data.length - data.getD (data.length - 1) 0)
      (data.getD (data.length - 1) 0)).all
      (fun i => data.getD i 0 == data.getD (data.length - 1) 0) then
    .ok (data.take (data.length - data.getD (data.length - 1) 0))
  else .error "Invalid padding"

/-- The byte list regrouped into 16-byte blocks; `none` when the length is
not a multiple of 16 (the callers guarantee it never is). -/
def toBlocks : List Nat → Option (List Block)
  | [] => some []
  | a0 :: a1 :: a2 :: a3 :: a4 :: a5 :: a6 :: a7 ::
    a8 :: a9 :: a10 :: a11 :: a12 :: a13 :: a14 :: a15 :: rest =>
      (toBlocks rest).map (fun bs =>
        ⟨a0, a1, a2, a3, a4, a5, a6, a7, a8, a9, a10, a11, a12, a13, a14, a15⟩ :: bs)
  | _ => none

def blockToList (s : Block) : List Nat :=
  [s.b0, s.b1, s.b2, s.b3, s.b4, s.b5, s.b6, s.b7,
   s.b8, s.b9, s.b10, s.b11, s.b12, s.b13, s.b14, s.b15]

def fromBlocks (bs : List Block) : List Nat := bs.flatMap blockToList

/-- aesEncrypt: pad, then encrypt each 16-byte block independently. -/
def aesEncrypt (plaintext key : List Nat) : Except String (List Nat) := do
  match toBlocks (padPKCS7 plaintext) with
  | some bs =>
      let encs ← bs.mapM (fun b => aesEncryptBlock b key)
      .ok (fromBlocks encs)
  | none => .error "unreachable: padded data is block-aligned"

/-- aesDecrypt: require a multiple of 16 bytes, decrypt each block
independently, then strip and validate the padding. -/
def aesDecrypt (ciphertext key : List Nat) : Except String (List Nat) := do
  if ciphertext.length % 16 ≠ 0 then
    .error "Ciphertext length must be a multiple of 16 bytes"
  else
    match toBlocks ciphertext with
    | some bs => do
        let decs ← bs.mapM (fun b => aesDecryptBlock b key)
        unpadPKCS7 (fromBlocks decs)
    | none => .error "unreachable: length checked above"

/-- aesEncryptText with the registry's isHexKey=false: UTF-8 the text and
the key, encrypt, render as lowercase hex. -/
def aesEncryptText (text keyText : List Char) : Except String (List Char) := do
  let textBytes := stringToUint8Array text
  let keyBytes := stringToUint8Array keyText
  let ciphertext ← aesEncrypt textBytes keyBytes
  .ok (uint8ArrayToHex ciphertext)

/-- aesDecryptText with isHexKey=false. -/
def aesDecryptText (hexCiphertext keyText : List Char) : Except String (List Char) := do
  let ciphertextBytes ← hexToUint8Array hexCiphertext
  let keyBytes := stringToUint8Array keyText
  let plaintextBytes ← aesDecrypt ciphertextBytes keyBytes
  .ok (uint8ArrayToString plaintextBytes)

/-- validateAesKey: the UTF-8 byte length of the key string is 16, 24 or 32. -/
def validateAesKey (key : List Char) : Bool :=
  let keyBytes := stringToUint8Array key
  keyBytes.length == 16 || keyBytes.length == 24 || keyBytes.length == 32

/-! ### Registry (algorithmData) and defaults -/

/-- The registry's AES decrypt entry: aesDecryptText wrapped in try/catch,
any failure replaced by fixed in-band text. Total. -/
def aesRegistryDecrypt (text key : List Char) : List Char :=
  match aesDecryptText text key with
  | .ok s => s
  | .error _ => "Decryption failed. Please check your key and ciphertext.".data

/-- The heterogeneous key values of the registry algorithms. -/
inductive KeyValue where
  | shift (s : Int)
  | affine (a b : Int)
  | permutation (key : List Char)
  | byteKey (key : List Char)
deriving DecidableEq, Repr

/-- getDefaultKey. The monoalphabetic default calls generateRandomKey
(Math.random-driven Fisher-Yates shuffle), modelled by the `randKey`
parameter supplying whichever permutation the shuffle produced. -/
def getDefaultKey (randKey : List Char) (algorithmId : List Char) : Option KeyValue :=
  if algorithmId = "caesar".data then some (.shift 3)
  else if algorithmId = "affine".data then some (.affine 5 8)
  else if algorithmId = "monoalphabetic".data then some (.permutation randKey)
  else if algorithmId = "aes".data then some (.byteKey "AESSecureKey12345".data)
  else none

/-! ### Pipeline composer (ProcessVisualization.tsx) -/

/-- The per-algorithm key bindings handed to the composer (the AlgorithmKey
record, one key per algorithm id). -/
structure Keys where
  (caesar : Int)
  (affineA : Int)
  (affineB : Int)
  (monoalphabetic : List Char)
  (aes : List Char)

inductive Mode where
  | encrypt
  | decrypt
deriving DecidableEq, Repr

/-- How a pipeline run can fail: an unknown algorithm id (getAlgorithm
returned undefined), or a step's operation threw (caught by the
try/catch around `operation(stepInput, key)`). -/
inductive PipeError where
  | lookupFailure
  | stepFailure (msg : String)
deriving DecidableEq, Repr

/-- Registry ids, in algorithmData order. -/
def algorithmIds : List (List Char) :=
  ["caesar".data, "aes".data, "affine".data, "monoalphabetic".data]

/-- One step of `animateAlgorithmStep`: registry lookup (`none` = unknown
id), then the mode's operation with that algorithm's bound key. The inner
`Except` is a thrown (and caught) operation error. -/
def applyAlgorithm (id : List Char) (mode : Mode) (keys : Keys) (input : List Char) :
    Option (Except String (List Char)) :=
  if id = "caesar".data then
    some (.ok (match mode with
      | .encrypt => caesarEncrypt input keys.caesar
      | .decrypt => caesarDecrypt input keys.caesar))
  else if id = "aes".data then
    some (match mode with
      | .encrypt => aesEncryptText input keys.aes
      | .decrypt => .ok (aesRegistryDecrypt input keys.aes))
  else if id = "affine".data then
    some (match mode with
      | .encrypt => affineEncrypt input keys.affineA keys.affineB
      | .decrypt => .ok (affineDecrypt input keys.affineA keys.affineB))
  else if id = "monoalphabetic".data then
    some (match mode with
      | .encrypt => monoalphabeticEncrypt input keys.monoalphabetic
      | .decrypt => monoalphabeticDecrypt input keys.monoalphabetic)
  else none

/-- The sequential walk of `animateAlgorithmStep` over the (already
direction-ordered) step list. Returns the outputs of the completed steps
in execution order, and either the final output (delivered to onResult
after the last step) or the failure that stopped the run. -/
def runSteps (keys : Keys) (mode : Mode) :
    List (List Char) → List Char → List (List Char) →
    List (List Char) × Except PipeError (List Char)
  | [], current, trace => (trace, .ok current)
  | id :: rest, current, trace =>
    match applyAlgorithm id mode keys current with
    | none => (trace, .error .lookupFailure)
    | some (.error m) => (trace, .error (.stepFailure m))
    | some (.ok out) => runSteps keys mode rest out (trace ++ [out])

/-- processText: nothing runs on an empty selection (onResult('')); else
decrypt mode reverses the step list and the walk starts at step 0. -/
def runPipeline (text : List Char) (order : List (List Char)) (keys : Keys) (mode : Mode) :
    List (List Char) × Except PipeError (List Char) :=
  if order.isEmpty then ([], .ok [])
  else
    let orderedAlgorithms := match mode with
      | .decrypt => order.reverse
      | .encrypt => order
    runSteps keys mode orderedAlgorithms text []

/-! ### Arithmetic facts about the JS shift normalisation -/

theorem tmod26_bound (s : Int) : (s.tmod 26).natAbs < 26 := by
  rw [natAbs_tmod]
  exact Nat.mod_lt _ (by norm_num)

/-- The source normalisation ((s % 26) + 26) % 26 (JS %) is the
mathematical residue of s mod 26. -/
theorem caesarNorm_eq (s : Int) : ((s.tmod 26) + 26).tmod 26 = s % 26 := by
  have h5 : (s.tmod 26).natAbs < 26 := tmod26_bound s
  have h4 : (0 : Int) ≤ s.tmod 26 + 26 := by omega
  rw [Int.tmod_eq_emod h4 (by norm_num)]
  obtain ⟨q, hq⟩ : ∃ q, s = s.tmod 26 + 26 * q :=
    ⟨s.tdiv 26, by linarith [Int.tmod_add_tdiv s 26]⟩
  conv_rhs => rw [hq]
  generalize s.tmod 26 = t at h5 ⊢
  omega

theorem tmod_self_of_range (s : Int) (h0 : 0 ≤ s) (h1 : s < 26) : s.tmod 26 = s := by
  rw [Int.tmod_eq_emod h0 (by norm_num)]
  omega

/-! ### Per-character Caesar facts -/

/-- Char comparison against letter bounds is comparison of code points. -/
theorem charUpper_iff (c : Char) : ('A' ≤ c ∧ c ≤ 'Z') ↔ (65 ≤ c.toNat ∧ c.toNat ≤ 90) :=
  Iff.intro (fun h => h) (fun h => h)

theorem charLower_iff (c : Char) : ('a' ≤ c ∧ c ≤ 'z') ↔ (97 ≤ c.toNat ∧ c.toNat ≤ 122) :=
  Iff.intro (fun h => h) (fun h => h)

theorem toNat_ofNat_valid {n : Nat} (h : n < 55296) : (Char.ofNat n).toNat = n := by
  rw [Char.ofNat, dif_pos]
  · rfl
  · exact Or.inl h

/-- Encrypting with one shift and then with a complementary shift is the
identity on every character. -/
theorem caesarShiftChar_inv (s t : Nat) (_hs : s < 26) (_ht : t < 26)
    (hsum : (s + t) % 26 = 0) (c : Char) :
    caesarShiftChar t (caesarShiftChar s c) = c := by
  unfold caesarShiftChar
  by_cases h1 : 'A' ≤ c ∧ c ≤ 'Z'
  · have hc := (charUpper_iff c).mp h1
    rw [if_pos h1]
    have he : (Char.ofNat (((c.toNat - 65 + s) % 26) + 65)).toNat
        = ((c.toNat - 65 + s) % 26) + 65 := toNat_ofNat_valid (by omega)
    have hb : 65 ≤ (Char.ofNat (((c.toNat - 65 + s) % 26) + 65)).toNat ∧
        (Char.ofNat (((c.toNat - 65 + s) % 26) + 65)).toNat ≤ 90 := by
      rw [he]; omega
    rw [if_pos ((charUpper_iff _).mpr hb), he]
    have harith : ((((c.toNat - 65 + s) % 26) + 65 - 65 + t) % 26) + 65 = c.toNat := by omega
    rw [harith, Char.ofNat_toNat]
  · by_cases h2 : 'a' ≤ c ∧ c ≤ 'z'
    · have hc := (charLower_iff c).mp h2
      rw [if_neg h1, if_pos h2]
      have he : (Char.ofNat (((c.toNat - 97 + s) % 26) + 97)).toNat
          = ((c.toNat - 97 + s) % 26) + 97 := toNat_ofNat_valid (by omega)
      have hb : 97 ≤ (Char.ofNat (((c.toNat - 97 + s) % 26) + 97)).toNat ∧
          (Char.ofNat (((c.toNat - 97 + s) % 26) + 97)).toNat ≤ 122 := by
        rw [he]; omega
      have hnu : ¬('A' ≤ Char.ofNat (((c.toNat - 97 + s) % 26) + 97) ∧
          Char.ofNat (((c.toNat - 97 + s) % 26) + 97) ≤ 'Z') := by
        rw [charUpper_iff, he]; omega
      rw [if_neg hnu, if_pos ((charLower_iff _).mpr hb), he]
      have harith : ((((c.toNat - 97 + s) % 26) + 97 - 97 + t) % 26) + 97 = c.toNat := by omega
      rw [harith, Char.ofNat_toNat]
    · rw [if_neg h1, if_neg h2, if_neg h1, if_neg h2]

/-- The zero shift is the identity on every character. -/
theorem caesarShiftChar_zero (c : Char) : caesarShiftChar 0 c = c := by
  unfold caesarShiftChar
  by_cases h1 : 'A' ≤ c ∧ c ≤ 'Z'
  · have hc := (charUpper_iff c).mp h1
    rw [if_pos h1]
    have harith : ((c.toNat - 65 + 0) % 26) + 65 = c.toNat := by omega
    rw [harith, Char.ofNat_toNat]
  · by_cases h2 : 'a' ≤ c ∧ c ≤ 'z'
    · have hc := (charLower_iff c).mp h2
      rw [if_neg h1, if_pos h2]
      have harith : ((c.toNat - 97 + 0) % 26) + 97 = c.toNat := by omega
      rw [harith, Char.ofNat_toNat]
    · rw [if_neg h1, if_neg h2]

/-- The Caesar round trip for validator-accepted shifts, over every string. -/
theorem caesar_roundtrip (s : Int) (hs : validateCaesarKey s = true) (text : List Char) :
    caesarDecrypt (caesarEncrypt text s) s = text := by
  have hrange : 0 ≤ s ∧ s ≤ 25 := by
    unfold validateCaesarKey at hs
    constructor <;> [exact of_decide_eq_true (Bool.and_elim_left hs);
      exact of_decide_eq_true (Bool.and_elim_right hs)]
  unfold caesarDecrypt caesarEncrypt
  rw [List.map_map]
  have hts : s.tmod 26 = s := tmod_self_of_range s hrange.1 (by omega)
  have henc : (((s.tmod 26) + 26).tmod 26).toNat = s.toNat := by
    rw [caesarNorm_eq]
    have : s % 26 = s := by omega
    rw [this]
  have hdec : ((((26 - s.tmod 26).tmod 26) + 26).tmod 26).toNat = ((26 - s) % 26).toNat := by
    rw [caesarNorm_eq, hts]
  rw [henc, hdec]
  have hfun : ∀ c, caesarShiftChar ((26 - s) % 26).toNat (caesarShiftChar s.toNat c) = c := by
    intro c
    apply caesarShiftChar_inv
    · omega
    · omega
    · omega
  calc text.map ((caesarShiftChar ((26 - s) % 26).toNat) ∘ (caesarShiftChar s.toNat))
        = text.map id := List.map_congr_left (fun c _ => hfun c)
      _ = text := List.map_id text

/-! ### Affine round trip -/

theorem tmod26_nonneg_lt (x : Int) (h : 0 ≤ x) : 0 ≤ x.tmod 26 ∧ x.tmod 26 < 26 := by
  rw [Int.tmod_eq_emod h (by norm_num)]
  omega

/-- Unpacking of a successful validateAffineKey. -/
theorem validateAffineKey_spec (a b : Int) (h : validateAffineKey a b = true) :
    1 ≤ a ∧ a ≤ 25 ∧ 0 ≤ b ∧ b ≤ 25 ∧ gcdJS a 26 = 1 := by
  unfold validateAffineKey at h
  split at h
  · exact absurd h (by simp)
  · rename_i hcond
    simp only [Bool.or_eq_true, decide_eq_true_eq, not_or] at hcond
    exact ⟨by omega, by omega, by omega, by omega, beq_iff_eq.mp h⟩

theorem affine_core : ∀ a < 26, ∀ b < 26, ∀ x < 26,
    validateAffineKey (a : Nat) (b : Nat) = true →
    ((modInverseSearch (a : Nat) 26 *
        ((((a : Nat) * (x : Nat) + (b : Nat) : Int).tmod 26) - (b : Nat) + 26)).tmod 26).toNat
      = x := by decide

/-- Decrypting an encrypted character restores it, for validator-accepted
affine keys (per character). -/
theorem affineChar_inv (a b : Int) (hv : validateAffineKey a b = true) (c : Char) :
    affineDecryptChar (modInverseSearch a 26) b (affineEncryptChar a b c) = c := by
  obtain ⟨ha1, ha2, hb1, hb2, hg⟩ := validateAffineKey_spec a b hv
  have hva : ((a.toNat : Int)) = a := Int.toNat_of_nonneg (by omega)
  have hvb : ((b.toNat : Int)) = b := Int.toNat_of_nonneg hb1
  have hvkey : validateAffineKey (a.toNat : Nat) (b.toNat : Nat) = true := by
    rw [hva, hvb]; exact hv
  unfold affineEncryptChar affineDecryptChar
  by_cases h1 : 'A' ≤ c ∧ c ≤ 'Z'
  · have hc := (charUpper_iff c).mp h1
    rw [if_pos h1]
    set E : Int := (a * ((c.toNat : Int) - 65) + b).tmod 26 with hE
    have hEb : 0 ≤ E ∧ E < 26 := tmod26_nonneg_lt _ (by nlinarith)
    have he : (Char.ofNat (E.toNat + 65)).toNat = E.toNat + 65 :=
      toNat_ofNat_valid (by omega)
    have hb : 65 ≤ (Char.ofNat (E.toNat + 65)).toNat ∧
        (Char.ofNat (E.toNat + 65)).toNat ≤ 90 := by rw [he]; omega
    rw [if_pos ((charUpper_iff _).mpr hb), he]
    have hcast : ((E.toNat + 65 : Nat) : Int) - 65 = E := by omega
    rw [hcast]
    have hx : ∃ x : Nat, x < 26 ∧ (c.toNat : Int) - 65 = (x : Int) := ⟨c.toNat - 65, by omega, by omega⟩
    obtain ⟨x, hxlt, hxeq⟩ := hx
    have hkey := affine_core a.toNat (by omega) b.toNat (by omega) x hxlt hvkey
    rw [hE, hxeq, ← hva, ← hvb]
    rw [hkey]
    have : (x : Nat) + 65 = c.toNat := by omega
    rw [this, Char.ofNat_toNat]
  · by_cases h2 : 'a' ≤ c ∧ c ≤ 'z'
    · have hc := (charLower_iff c).mp h2
      rw [if_neg h1, if_pos h2]
      set E : Int := (a * ((c.toNat : Int) - 97) + b).tmod 26 with hE
      have hEb : 0 ≤ E ∧ E < 26 := tmod26_nonneg_lt _ (by nlinarith)
      have he : (Char.ofNat (E.toNat + 97)).toNat = E.toNat + 97 :=
        toNat_ofNat_valid (by omega)
      have hbl : 97 ≤ (Char.ofNat (E.toNat + 97)).toNat ∧
          (Char.ofNat (E.toNat + 97)).toNat ≤ 122 := by rw [he]; omega
      have hnu : ¬('A' ≤ Char.ofNat (E.toNat + 97) ∧ Char.ofNat (E.toNat + 97) ≤ 'Z') := by
        rw [charUpper_iff, he]; omega
      rw [if_neg hnu, if_pos ((charLower_iff _).mpr hbl), he]
      have hcast : ((E.toNat + 97 : Nat) : Int) - 97 = E := by omega
      rw [hcast]
      have hx : ∃ x : Nat, x < 26 ∧ (c.toNat : Int) - 97 = (x : Int) :=
        ⟨c.toNat - 97, by omega, by omega⟩
      obtain ⟨x, hxlt, hxeq⟩ := hx
      have hkey := affine_core a.toNat (by omega) b.toNat (by omega) x hxlt hvkey
      rw [hE, hxeq, ← hva, ← hvb]
      rw [hkey]
      have : (x : Nat) + 97 = c.toNat := by omega
      rw [this, Char.ofNat_toNat]
    · rw [if_neg h1, if_neg h2, if_neg h1, if_neg h2]

/-- The affine round trip for validator-accepted keys: encryption succeeds
and decryption restores the input, over every string. -/
theorem affine_roundtrip (a b : Int) (hv : validateAffineKey a b = true) (text : List Char) :
    (affineEncrypt text a b).map (fun ct => affineDecrypt ct a b) = .ok text := by
  obtain ⟨_, _, _, _, hg⟩ := validateAffineKey_spec a b hv
  unfold affineEncrypt affineDecrypt modInverse
  rw [if_neg (by simp [hg])]
  simp only [Except.map]
  rw [if_neg (by simp [hg])]
  show Except.ok ((text.map (affineEncryptChar a b)).map
      (affineDecryptChar (modInverseSearch a 26) b)) = Except.ok text
  rw [List.map_map]
  have : text.map ((affineDecryptChar (modInverseSearch a 26) b) ∘ (affineEncryptChar a b))
      = text.map id := List.map_congr_left (fun c _ => affineChar_inv a b hv c)
  rw [this, List.map_id]

/-! ### Monoalphabetic: validator analysis and round trip -/

/-- Char.toUpper is idempotent. -/
theorem toUpper_idem (c : Char) : c.toUpper.toUpper = c.toUpper := by
  show (if 'a' ≤ c.toUpper ∧ c.toUpper ≤ 'z' then Char.ofNat (c.toUpper.toNat - 32)
    else c.toUpper) = c.toUpper
  rw [if_neg]
  intro hlow
  have hlow' := (charLower_iff _).mp hlow
  have : c.toUpper = if 'a' ≤ c ∧ c ≤ 'z' then Char.ofNat (c.toNat - 32) else c := rfl
  rw [this] at hlow'
  by_cases h : 'a' ≤ c ∧ c ≤ 'z'
  · have hc := (charLower_iff c).mp h
    rw [if_pos h, toNat_ofNat_valid (by omega)] at hlow'
    omega
  · rw [if_neg h] at hlow'
    exact h ((charLower_iff c).mpr hlow')

theorem map_toUpper_idem (l : List Char) :
    (l.map Char.toUpper).map Char.toUpper = l.map Char.toUpper := by
  rw [List.map_map]
  exact List.map_congr_left (fun c _ => toUpper_idem c)

/-- Validating the uppercased key is validating the key (the validator
itself begins by uppercasing). -/
theorem validateMono_toUpper (key : List Char) :
    validateMonoalphabeticKey (key.map Char.toUpper) = validateMonoalphabeticKey key := by
  unfold validateMonoalphabeticKey
  rw [map_toUpper_idem]

/-- A successful walk of the validation loop means: all entries are
uppercase letters not in the initial seen set, and no duplicates. -/
theorem monoCheckLoop_sound : ∀ (l seen acc : List Char),
    monoCheckLoop l seen = some acc →
    l.Nodup ∧ ∀ c ∈ l, ('A' ≤ c ∧ c ≤ 'Z') ∧ c ∉ seen := by
  intro l
  induction l with
  | nil => intro seen acc _; exact ⟨List.nodup_nil, by simp⟩
  | cons c rest ih =>
    intro seen acc h
    unfold monoCheckLoop at h
    split at h
    · exact absurd h (by simp)
    · split at h
      · exact absurd h (by simp)
      · rename_i hup hseen
        obtain ⟨hnd, hmem⟩ := ih (c :: seen) acc h
        push_neg at hup
        constructor
        · refine List.nodup_cons.mpr ⟨?_, hnd⟩
          intro hc
          exact (hmem c hc).2 (by simp)
        · intro d hd
          rcases List.mem_cons.mp hd with rfl | hd'
          · refine ⟨by tauto, ?_⟩
            intro hds
            exact hseen (by simpa using hds)
          · obtain ⟨hdup, hdnot⟩ := hmem d hd'
            exact ⟨hdup, fun hds => hdnot (by simp [hds])⟩

/-- What a validator-accepted monoalphabetic key gives us about its
uppercased form. -/
theorem validateMono_spec (key : List Char) (h : validateMonoalphabeticKey key = true) :
    (key.map Char.toUpper).length = 26 ∧ (key.map Char.toUpper).Nodup ∧
    ∀ c ∈ key.map Char.toUpper, 'A' ≤ c ∧ c ≤ 'Z' := by
  unfold validateMonoalphabeticKey at h
  split at h
  · exact absurd h (by simp)
  · rename_i hlen
    push_neg at hlen
    split at h
    · exact absurd h (by simp)
    · rename_i seen hloop
      obtain ⟨hnd, hmem⟩ := monoCheckLoop_sound _ [] seen hloop
      exact ⟨hlen, hnd, fun c hc => (hmem c hc).1⟩

/-- ALPHABET position of an uppercase letter is its code point offset. -/
theorem alphabet_indexOf_fin : ∀ i : Fin 26,
    ALPHABET.indexOf (Char.ofNat (65 + i.val)) = i.val := by decide

theorem alphabet_getD_fin : ∀ i : Fin 26,
    ALPHABET.getD i.val (Char.ofNat 0) = Char.ofNat (65 + i.val) := by decide

theorem upper_toLower_fin : ∀ i : Fin 26,
    (Char.ofNat (65 + i.val)).toLower = Char.ofNat (97 + i.val) := by decide

theorem lower_toUpper_fin : ∀ i : Fin 26,
    (Char.ofNat (97 + i.val)).toUpper = Char.ofNat (65 + i.val) := by decide

/-- Decrypting an encrypted character yields exactly that character, for a
key whose uppercased form is a 26-letter permutation. -/
theorem monoChar_inv (k : List Char) (hlen : k.length = 26) (hnd : k.Nodup)
    (hup : ∀ c ∈ k, 'A' ≤ c ∧ c ≤ 'Z') (c : Char) :
    monoDecChar k (monoEncChar k c) = [c] := by
  unfold monoEncChar monoDecChar
  by_cases h1 : 'A' ≤ c ∧ c ≤ 'Z'
  · have hc := (charUpper_iff c).mp h1
    rw [if_pos h1]
    obtain ⟨i, hilt, hieq⟩ : ∃ i : Nat, i < 26 ∧ c = Char.ofNat (65 + i) :=
      ⟨c.toNat - 65, by omega, by rw [show 65 + (c.toNat - 65) = c.toNat by omega,
        Char.ofNat_toNat]⟩
    have hidx : ALPHABET.indexOf c = i := by
      rw [hieq]; exact alphabet_indexOf_fin ⟨i, hilt⟩
    rw [hidx]
    have hi : i < k.length := by omega
    have hgd : k.getD i (Char.ofNat 0) = k[i] := List.getD_eq_getElem k _ hi
    rw [hgd]
    have hke := hup k[i] (List.getElem_mem hi)
    rw [if_pos hke, if_pos (List.getElem_mem hi)]
    rw [List.indexOf_getElem hnd i hi]
    have : ALPHABET.getD i (Char.ofNat 0) = Char.ofNat (65 + i) :=
      alphabet_getD_fin ⟨i, hilt⟩
    rw [this, ← hieq]
  · by_cases h2 : 'a' ≤ c ∧ c ≤ 'z'
    · have hc := (charLower_iff c).mp h2
      rw [if_neg h1, if_pos h2]
      obtain ⟨i, hilt, hieq⟩ : ∃ i : Nat, i < 26 ∧ c = Char.ofNat (97 + i) :=
        ⟨c.toNat - 97, by omega, by rw [show 97 + (c.toNat - 97) = c.toNat by omega,
          Char.ofNat_toNat]⟩
      have hcu : c.toUpper = Char.ofNat (65 + i) := by
        rw [hieq]; exact lower_toUpper_fin ⟨i, hilt⟩
      have hidx : ALPHABET.indexOf c.toUpper = i := by
        rw [hcu]; exact alphabet_indexOf_fin ⟨i, hilt⟩
      rw [hidx]
      have hi : i < k.length := by omega
      have hgd : k.getD i (Char.ofNat 0) = k[i] := List.getD_eq_getElem k _ hi
      rw [hgd]
      have hke := hup k[i] (List.getElem_mem hi)
      have hkc := (charUpper_iff k[i]).mp hke
      obtain ⟨j, hjlt, hjeq⟩ : ∃ j : Nat, j < 26 ∧ k[i] = Char.ofNat (65 + j) :=
        ⟨k[i].toNat - 65, by omega, by rw [show 65 + (k[i].toNat - 65) = k[i].toNat by omega,
          Char.ofNat_toNat]⟩
      have hlow : k[i].toLower = Char.ofNat (97 + j) := by
        rw [hjeq]; exact upper_toLower_fin ⟨j, hjlt⟩
      have hlowc := toNat_ofNat_valid (n := 97 + j) (by omega)
      have hnu : ¬('A' ≤ k[i].toLower ∧ k[i].toLower ≤ 'Z') := by
        rw [hlow, charUpper_iff, hlowc]; omega
      have hnl : 'a' ≤ k[i].toLower ∧ k[i].toLower ≤ 'z' := by
        rw [hlow, charLower_iff, hlowc]; omega
      rw [if_neg hnu, if_pos hnl]
      have hback : k[i].toLower.toUpper = k[i] := by
        rw [hlow, lower_toUpper_fin ⟨j, hjlt⟩, hjeq]
      rw [hback, if_pos (List.getElem_mem hi), List.indexOf_getElem hnd i hi]
      have : ALPHABET.getD i (Char.ofNat 0) = Char.ofNat (65 + i) :=
        alphabet_getD_fin ⟨i, hilt⟩
      rw [this]
      have : (Char.ofNat (65 + i)).toLower = Char.ofNat (97 + i) :=
        upper_toLower_fin ⟨i, hilt⟩
      rw [this, ← hieq]
    · rw [if_neg h1, if_neg h2, if_neg h1, if_neg h2]

/-- The monoalphabetic round trip for validator-accepted keys, over every
string. -/
theorem mono_roundtrip (key : List Char) (hv : validateMonoalphabeticKey key = true)
    (text : List Char) :
    (monoalphabeticEncrypt text key).bind (fun ct => monoalphabeticDecrypt ct key)
      = .ok text := by
  obtain ⟨hlen, hnd, hup⟩ := validateMono_spec key hv
  have hvup : validateMonoalphabeticKey (key.map Char.toUpper) = true := by
    rw [validateMono_toUpper]; exact hv
  unfold monoalphabeticEncrypt monoalphabeticDecrypt
  rw [if_neg (by simp [hvup])]
  show (if ¬validateMonoalphabeticKey (key.map Char.toUpper) = true then
      (Except.error "Invalid substitution key" : Except String (List Char))
    else Except.ok ((text.map (monoEncChar (key.map Char.toUpper))).flatMap
      (monoDecChar (key.map Char.toUpper)))) = Except.ok text
  rw [if_neg (by simp [hvup])]
  rw [List.flatMap_map]
  have hstep : text.flatMap (fun a => monoDecChar (key.map Char.toUpper)
      (monoEncChar (key.map Char.toUpper) a)) = text.flatMap (fun c => [c]) := by
    induction text with
    | nil => rfl
    | cons c r ih =>
      simp only [List.flatMap_cons]
      rw [ih]
      show monoDecChar _ (monoEncChar _ c) ++ r.flatMap (fun c => [c])
          = [c] ++ r.flatMap (fun c => [c])
      rw [monoChar_inv _ hlen hnd hup c]
  rw [hstep, List.flatMap_singleton']

/-! ### gmul: XOR-linearity in the second argument and bounds -/

theorem gmulAux_xor (n : Nat) : ∀ (a b1 b2 p1 p2 : Nat),
    gmulAux n a (b1 ^^^ b2) (p1 ^^^ p2) = gmulAux n a b1 p1 ^^^ gmulAux n a b2 p2 := by
  induction n with
  | zero => intro a b1 b2 p1 p2; rfl
  | succ m ih =>
    intro a b1 b2 p1 p2
    have hb : (b1 ^^^ b2) >>> 1 = (b1 >>> 1) ^^^ (b2 >>> 1) := by
      apply Nat.eq_of_testBit_eq; intro i
      simp [Nat.testBit_shiftRight, Nat.testBit_xor]
    have hand : (b1 ^^^ b2) &&& 1 = (b1 &&& 1) ^^^ (b2 &&& 1) := Nat.and_xor_distrib_right
    have h1 : b1 &&& 1 = b1 % 2 := Nat.and_one_is_mod b1
    have h2 : b2 &&& 1 = b2 % 2 := Nat.and_one_is_mod b2
    have key : (if (b1 ^^^ b2) &&& 1 ≠ 0 then (p1 ^^^ p2) ^^^ a else p1 ^^^ p2)
        = (if b1 &&& 1 ≠ 0 then p1 ^^^ a else p1) ^^^ (if b2 &&& 1 ≠ 0 then p2 ^^^ a else p2) := by
      rcases Nat.mod_two_eq_zero_or_one b1 with e1 | e1 <;>
        rcases Nat.mod_two_eq_zero_or_one b2 with e2 | e2 <;>
          simp only [hand, h1, h2, e1, e2] <;> norm_num <;>
          simp [Nat.xor_assoc, Nat.xor_comm, xorLeftComm, xorCancelLeft, Nat.xor_self,
            Nat.xor_zero]
    simp only [gmulAux, hb, key, ih]

/-- gmul distributes over XOR in its second argument. -/
theorem gmul_xor (a b1 b2 : Nat) : gmul a (b1 ^^^ b2) = gmul a b1 ^^^ gmul a b2 := by
  unfold gmul
  have h := gmulAux_xor 8 a b1 b2 0 0
  rw [Nat.xor_zero] at h
  rw [h, Nat.and_xor_distrib_right]

theorem gmul_lt (a b : Nat) : gmul a b < 256 := by
  have : gmul a b ≤ 255 := Nat.and_le_right
  omega

theorem xor_lt_256 {a b : Nat} (ha : a < 256) (hb : b < 256) : a ^^^ b < 256 := by
  have h : a ^^^ b < 2 ^ 8 := Nat.xor_lt_two_pow ha hb
  simpa using h

/-! ### The sixteen coefficient identities behind InvMixColumns ∘ MixColumns -/

theorem mcRow0 : ∀ x < 256,
    gmul 14 (gmul 2 x) ^^^ gmul 11 x ^^^ gmul 13 x ^^^ gmul 9 (gmul 3 x) = x ∧
    gmul 14 (gmul 3 x) ^^^ gmul 11 (gmul 2 x) ^^^ gmul 13 x ^^^ gmul 9 x = 0 ∧
    gmul 14 x ^^^ gmul 11 (gmul 3 x) ^^^ gmul 13 (gmul 2 x) ^^^ gmul 9 x = 0 ∧
    gmul 14 x ^^^ gmul 11 x ^^^ gmul 13 (gmul 3 x) ^^^ gmul 9 (gmul 2 x) = 0 := by decide

theorem mcRow1 : ∀ x < 256,
    gmul 9 (gmul 2 x) ^^^ gmul 14 x ^^^ gmul 11 x ^^^ gmul 13 (gmul 3 x) = 0 ∧
    gmul 9 (gmul 3 x) ^^^ gmul 14 (gmul 2 x) ^^^ gmul 11 x ^^^ gmul 13 x = x ∧
    gmul 9 x ^^^ gmul 14 (gmul 3 x) ^^^ gmul 11 (gmul 2 x) ^^^ gmul 13 x = 0 ∧
    gmul 9 x ^^^ gmul 14 x ^^^ gmul 11 (gmul 3 x) ^^^ gmul 13 (gmul 2 x) = 0 := by decide

theorem mcRow2 : ∀ x < 256,
    gmul 13 (gmul 2 x) ^^^ gmul 9 x ^^^ gmul 14 x ^^^ gmul 11 (gmul 3 x) = 0 ∧
    gmul 13 (gmul 3 x) ^^^ gmul 9 (gmul 2 x) ^^^ gmul 14 x ^^^ gmul 11 x = 0 ∧
    gmul 13 x ^^^ gmul 9 (gmul 3 x) ^^^ gmul 14 (gmul 2 x) ^^^ gmul 11 x = x ∧
    gmul 13 x ^^^ gmul 9 x ^^^ gmul 14 (gmul 3 x) ^^^ gmul 11 (gmul 2 x) = 0 := by decide

theorem mcRow3 : ∀ x < 256,
    gmul 11 (gmul 2 x) ^^^ gmul 13 x ^^^ gmul 9 x ^^^ gmul 14 (gmul 3 x) = 0 ∧
    gmul 11 (gmul 3 x) ^^^ gmul 13 (gmul 2 x) ^^^ gmul 9 x ^^^ gmul 14 x = 0 ∧
    gmul 11 x ^^^ gmul 13 (gmul 3 x) ^^^ gmul 9 (gmul 2 x) ^^^ gmul 14 x = 0 ∧
    gmul 11 x ^^^ gmul 13 x ^^^ gmul 9 (gmul 3 x) ^^^ gmul 14 (gmul 2 x) = x := by decide

/-! ### InvMixColumns inverts MixColumns, column by column -/

theorem z0_eq (t0 t1 t2 t3 : Nat) (h0 : t0 < 256) (h1 : t1 < 256) (h2 : t2 < 256)
    (h3 : t3 < 256) :
    gmul 14 (gmul 2 t0 ^^^ gmul 3 t1 ^^^ t2 ^^^ t3) ^^^
      gmul 11 (t0 ^^^ gmul 2 t1 ^^^ gmul 3 t2 ^^^ t3) ^^^
      gmul 13 (t0 ^^^ t1 ^^^ gmul 2 t2 ^^^ gmul 3 t3) ^^^
      gmul 9 (gmul 3 t0 ^^^ t1 ^^^ t2 ^^^ gmul 2 t3) = t0 := by
  have e0 := (mcRow0 t0 h0).1
  have e1 := ((mcRow0 t1 h1).2).1
  have e2 := (((mcRow0 t2 h2).2).2).1
  have e3 := (((mcRow0 t3 h3).2).2).2
  calc gmul 14 (gmul 2 t0 ^^^ gmul 3 t1 ^^^ t2 ^^^ t3) ^^^
      gmul 11 (t0 ^^^ gmul 2 t1 ^^^ gmul 3 t2 ^^^ t3) ^^^
      gmul 13 (t0 ^^^ t1 ^^^ gmul 2 t2 ^^^ gmul 3 t3) ^^^
      gmul 9 (gmul 3 t0 ^^^ t1 ^^^ t2 ^^^ gmul 2 t3)
      = (gmul 14 (gmul 2 t0) ^^^ gmul 11 t0 ^^^ gmul 13 t0 ^^^ gmul 9 (gmul 3 t0)) ^^^
        (gmul 14 (gmul 3 t1) ^^^ gmul 11 (gmul 2 t1) ^^^ gmul 13 t1 ^^^ gmul 9 t1) ^^^
        (gmul 14 t2 ^^^ gmul 11 (gmul 3 t2) ^^^ gmul 13 (gmul 2 t2) ^^^ gmul 9 t2) ^^^
        (gmul 14 t3 ^^^ gmul 11 t3 ^^^ gmul 13 (gmul 3 t3) ^^^ gmul 9 (gmul 2 t3)) := by
        simp only [gmul_xor]
        simp [Nat.xor_assoc, Nat.xor_comm, xorLeftComm]
    _ = t0 := by rw [e0, e1, e2, e3]; simp

theorem z1_eq (t0 t1 t2 t3 : Nat) (h0 : t0 < 256) (h1 : t1 < 256) (h2 : t2 < 256)
    (h3 : t3 < 256) :
    gmul 9 (gmul 2 t0 ^^^ gmul 3 t1 ^^^ t2 ^^^ t3) ^^^
      gmul 14 (t0 ^^^ gmul 2 t1 ^^^ gmul 3 t2 ^^^ t3) ^^^
      gmul 11 (t0 ^^^ t1 ^^^ gmul 2 t2 ^^^ gmul 3 t3) ^^^
      gmul 13 (gmul 3 t0 ^^^ t1 ^^^ t2 ^^^ gmul 2 t3) = t1 := by
  have e0 := (mcRow1 t0 h0).1
  have e1 := ((mcRow1 t1 h1).2).1
  have e2 := (((mcRow1 t2 h2).2).2).1
  have e3 := (((mcRow1 t3 h3).2).2).2
  calc gmul 9 (gmul 2 t0 ^^^ gmul 3 t1 ^^^ t2 ^^^ t3) ^^^
      gmul 14 (t0 ^^^ gmul 2 t1 ^^^ gmul 3 t2 ^^^ t3) ^^^
      gmul 11 (t0 ^^^ t1 ^^^ gmul 2 t2 ^^^ gmul 3 t3) ^^^
      gmul 13 (gmul 3 t0 ^^^ t1 ^^^ t2 ^^^ gmul 2 t3)
      = (gmul 9 (gmul 2 t0) ^^^ gmul 14 t0 ^^^ gmul 11 t0 ^^^ gmul 13 (gmul 3 t0)) ^^^
        (gmul 9 (gmul 3 t1) ^^^ gmul 14 (gmul 2 t1) ^^^ gmul 11 t1 ^^^ gmul 13 t1) ^^^
        (gmul 9 t2 ^^^ gmul 14 (gmul 3 t2) ^^^ gmul 11 (gmul 2 t2) ^^^ gmul 13 t2) ^^^
        (gmul 9 t3 ^^^ gmul 14 t3 ^^^ gmul 11 (gmul 3 t3) ^^^ gmul 13 (gmul 2 t3)) := by
        simp only [gmul_xor]
        simp [Nat.xor_assoc, Nat.xor_comm, xorLeftComm]
    _ = t1 := by rw [e0, e1, e2, e3]; simp

theorem z2_eq (t0 t1 t2 t3 : Nat) (h0 : t0 < 256) (h1 : t1 < 256) (h2 : t2 < 256)
    (h3 : t3 < 256) :
    gmul 13 (gmul 2 t0 ^^^ gmul 3 t1 ^^^ t2 ^^^ t3) ^^^
      gmul 9 (t0 ^^^ gmul 2 t1 ^^^ gmul 3 t2 ^^^ t3) ^^^
      gmul 14 (t0 ^^^ t1 ^^^ gmul 2 t2 ^^^ gmul 3 t3) ^^^
      gmul 11 (gmul 3 t0 ^^^ t1 ^^^ t2 ^^^ gmul 2 t3) = t2 := by
  have e0 := (mcRow2 t0 h0).1
  have e1 := ((mcRow2 t1 h1).2).1
  have e2 := (((mcRow2 t2 h2).2).2).1
  have e3 := (((mcRow2 t3 h3).2).2).2
  calc gmul 13 (gmul 2 t0 ^^^ gmul 3 t1 ^^^ t2 ^^^ t3) ^^^
      gmul 9 (t0 ^^^ gmul 2 t1 ^^^ gmul 3 t2 ^^^ t3) ^^^
      gmul 14 (t0 ^^^ t1 ^^^ gmul 2 t2 ^^^ gmul 3 t3) ^^^
      gmul 11 (gmul 3 t0 ^^^ t1 ^^^ t2 ^^^ gmul 2 t3)
      = (gmul 13 (gmul 2 t0) ^^^ gmul 9 t0 ^^^ gmul 14 t0 ^^^ gmul 11 (gmul 3 t0)) ^^^
        (gmul 13 (gmul 3 t1) ^^^ gmul 9 (gmul 2 t1) ^^^ gmul 14 t1 ^^^ gmul 11 t1) ^^^
        (gmul 13 t2 ^^^ gmul 9 (gmul 3 t2) ^^^ gmul 14 (gmul 2 t2) ^^^ gmul 11 t2) ^^^
        (gmul 13 t3 ^^^ gmul 9 t3 ^^^ gmul 14 (gmul 3 t3) ^^^ gmul 11 (gmul 2 t3)) := by
        simp only [gmul_xor]
        simp [Nat.xor_assoc, Nat.xor_comm, xorLeftComm]
    _ = t2 := by rw [e0, e1, e2, e3]; simp

theorem z3_eq (t0 t1 t2 t3 : Nat) (h0 : t0 < 256) (h1 : t1 < 256) (h2 : t2 < 256)
    (h3 : t3 < 256) :
    gmul 11 (gmul 2 t0 ^^^ gmul 3 t1 ^^^ t2 ^^^ t3) ^^^
      gmul 13 (t0 ^^^ gmul 2 t1 ^^^ gmul 3 t2 ^^^ t3) ^^^
      gmul 9 (t0 ^^^ t1 ^^^ gmul 2 t2 ^^^ gmul 3 t3) ^^^
      gmul 14 (gmul 3 t0 ^^^ t1 ^^^ t2 ^^^ gmul 2 t3) = t3 := by
  have e0 := (mcRow3 t0 h0).1
  have e1 := ((mcRow3 t1 h1).2).1
  have e2 := (((mcRow3 t2 h2).2).2).1
  have e3 := (((mcRow3 t3 h3).2).2).2
  calc gmul 11 (gmul 2 t0 ^^^ gmul 3 t1 ^^^ t2 ^^^ t3) ^^^
      gmul 13 (t0 ^^^ gmul 2 t1 ^^^ gmul 3 t2 ^^^ t3) ^^^
      gmul 9 (t0 ^^^ t1 ^^^ gmul 2 t2 ^^^ gmul 3 t3) ^^^
      gmul 14 (gmul 3 t0 ^^^ t1 ^^^ t2 ^^^ gmul 2 t3)
      = (gmul 11 (gmul 2 t0) ^^^ gmul 13 t0 ^^^ gmul 9 t0 ^^^ gmul 14 (gmul 3 t0)) ^^^
        (gmul 11 (gmul 3 t1) ^^^ gmul 13 (gmul 2 t1) ^^^ gmul 9 t1 ^^^ gmul 14 t1) ^^^
        (gmul 11 t2 ^^^ gmul 13 (gmul 3 t2) ^^^ gmul 9 (gmul 2 t2) ^^^ gmul 14 t2) ^^^
        (gmul 11 t3 ^^^ gmul 13 t3 ^^^ gmul 9 (gmul 3 t3) ^^^ gmul 14 (gmul 2 t3)) := by
        simp only [gmul_xor]
        simp [Nat.xor_assoc, Nat.xor_comm, xorLeftComm]
    _ = t3 := by rw [e0, e1, e2, e3]; simp

/-! ### Block-level inverse and validity lemmas -/

theorem sbox_inv_sbox : ∀ x < 256, invSbox (sbox x) = x := by decide

theorem sbox_lt_aux : ∀ x < 256, sbox x < 256 ∧ invSbox x < 256 := by decide

theorem sbox_lt (x : Nat) : sbox x < 256 := by
  by_cases h : x < 256
  · exact (sbox_lt_aux x h).1
  · unfold sbox
    rw [List.getD_eq_default]
    · norm_num
    · have : SBOX.length = 256 := by decide
      omega

theorem invSbox_lt (x : Nat) : invSbox x < 256 := by
  by_cases h : x < 256
  · exact (sbox_lt_aux x h).2
  · unfold invSbox
    rw [List.getD_eq_default]
    · norm_num
    · have : INV_SBOX.length = 256 := by decide
      omega

theorem invShiftRows_shiftRows (s : Block) : invShiftRows (shiftRows s) = s := by
  cases s; rfl

theorem addRoundKey_addRoundKey (s k : Block) : addRoundKey (addRoundKey s k) k = s := by
  cases s; cases k
  simp only [addRoundKey, xorCancelRight]

theorem invSubBytes_subBytes (s : Block) (hs : BlockValid s) :
    invSubBytes (subBytes s) = s := by
  obtain ⟨h0, h1, h2, h3, h4, h5, h6, h7, h8, h9, h10, h11, h12, h13, h14, h15⟩ := hs
  cases s
  simp only [subBytes, invSubBytes]
  simp only [Block.mk.injEq]
  exact ⟨sbox_inv_sbox _ h0, sbox_inv_sbox _ h1, sbox_inv_sbox _ h2, sbox_inv_sbox _ h3,
    sbox_inv_sbox _ h4, sbox_inv_sbox _ h5, sbox_inv_sbox _ h6, sbox_inv_sbox _ h7,
    sbox_inv_sbox _ h8, sbox_inv_sbox _ h9, sbox_inv_sbox _ h10, sbox_inv_sbox _ h11,
    sbox_inv_sbox _ h12, sbox_inv_sbox _ h13, sbox_inv_sbox _ h14, sbox_inv_sbox _ h15⟩

theorem invMixColumns_mixColumns (s : Block) (hs : BlockValid s) :
    invMixColumns (mixColumns s) = s := by
  obtain ⟨h0, h1, h2, h3, h4, h5, h6, h7, h8, h9, h10, h11, h12, h13, h14, h15⟩ := hs
  cases s
  simp only [mixColumns, invMixColumns, mixColumn, invMixColumn]
  simp only [Block.mk.injEq]
  exact ⟨z0_eq _ _ _ _ h0 h1 h2 h3, z1_eq _ _ _ _ h0 h1 h2 h3,
    z2_eq _ _ _ _ h0 h1 h2 h3, z3_eq _ _ _ _ h0 h1 h2 h3,
    z0_eq _ _ _ _ h4 h5 h6 h7, z1_eq _ _ _ _ h4 h5 h6 h7,
    z2_eq _ _ _ _ h4 h5 h6 h7, z3_eq _ _ _ _ h4 h5 h6 h7,
    z0_eq _ _ _ _ h8 h9 h10 h11, z1_eq _ _ _ _ h8 h9 h10 h11,
    z2_eq _ _ _ _ h8 h9 h10 h11, z3_eq _ _ _ _ h8 h9 h10 h11,
    z0_eq _ _ _ _ h12 h13 h14 h15, z1_eq _ _ _ _ h12 h13 h14 h15,
    z2_eq _ _ _ _ h12 h13 h14 h15, z3_eq _ _ _ _ h12 h13 h14 h15⟩

theorem subBytes_valid (s : Block) : BlockValid (subBytes s) := by
  cases s
  exact ⟨sbox_lt _, sbox_lt _, sbox_lt _, sbox_lt _, sbox_lt _, sbox_lt _, sbox_lt _, sbox_lt _,
    sbox_lt _, sbox_lt _, sbox_lt _, sbox_lt _, sbox_lt _, sbox_lt _, sbox_lt _, sbox_lt _⟩

theorem invSubBytes_valid (s : Block) : BlockValid (invSubBytes s) := by
  cases s
  exact ⟨invSbox_lt _, invSbox_lt _, invSbox_lt _, invSbox_lt _, invSbox_lt _, invSbox_lt _,
    invSbox_lt _, invSbox_lt _, invSbox_lt _, invSbox_lt _, invSbox_lt _, invSbox_lt _,
    invSbox_lt _, invSbox_lt _, invSbox_lt _, invSbox_lt _⟩

theorem shiftRows_valid (s : Block) (hs : BlockValid s) : BlockValid (shiftRows s) := by
  obtain ⟨h0, h1, h2, h3, h4, h5, h6, h7, h8, h9, h10, h11, h12, h13, h14, h15⟩ := hs
  cases s
  exact ⟨h0, h5, h10, h15, h4, h9, h14, h3, h8, h13, h2, h7, h12, h1, h6, h11⟩

theorem invShiftRows_valid (s : Block) (hs : BlockValid s) : BlockValid (invShiftRows s) := by
  obtain ⟨h0, h1, h2, h3, h4, h5, h6, h7, h8, h9, h10, h11, h12, h13, h14, h15⟩ := hs
  cases s
  exact ⟨h0, h13, h10, h7, h4, h1, h14, h11, h8, h5, h2, h15, h12, h9, h6, h3⟩

theorem addRoundKey_valid (s k : Block) (hs : BlockValid s) (hk : BlockValid k) :
    BlockValid (addRoundKey s k) := by
  obtain ⟨h0, h1, h2, h3, h4, h5, h6, h7, h8, h9, h10, h11, h12, h13, h14, h15⟩ := hs
  obtain ⟨g0, g1, g2, g3, g4, g5, g6, g7, g8, g9, g10, g11, g12, g13, g14d, g15⟩ := hk
  cases s; cases k
  exact ⟨xor_lt_256 h0 g0, xor_lt_256 h1 g1, xor_lt_256 h2 g2, xor_lt_256 h3 g3,
    xor_lt_256 h4 g4, xor_lt_256 h5 g5, xor_lt_256 h6 g6, xor_lt_256 h7 g7,
    xor_lt_256 h8 g8, xor_lt_256 h9 g9, xor_lt_256 h10 g10, xor_lt_256 h11 g11,
    xor_lt_256 h12 g12, xor_lt_256 h13 g13, xor_lt_256 h14 g14d, xor_lt_256 h15 g15⟩

theorem mixColumn_valid (t0 t1 t2 t3 : Nat) (h0 : t0 < 256) (h1 : t1 < 256) (h2 : t2 < 256)
    (h3 : t3 < 256) :
    (mixColumn t0 t1 t2 t3).1 < 256 ∧ (mixColumn t0 t1 t2 t3).2.1 < 256 ∧
    (mixColumn t0 t1 t2 t3).2.2.1 < 256 ∧ (mixColumn t0 t1 t2 t3).2.2.2 < 256 :=
  ⟨xor_lt_256 (xor_lt_256 (xor_lt_256 (gmul_lt 2 t0) (gmul_lt 3 t1)) h2) h3,
   xor_lt_256 (xor_lt_256 (xor_lt_256 h0 (gmul_lt 2 t1)) (gmul_lt 3 t2)) h3,
   xor_lt_256 (xor_lt_256 (xor_lt_256 h0 h1) (gmul_lt 2 t2)) (gmul_lt 3 t3),
   xor_lt_256 (xor_lt_256 (xor_lt_256 (gmul_lt 3 t0) h1) h2) (gmul_lt 2 t3)⟩

theorem invMixColumn_valid (t0 t1 t2 t3 : Nat) :
    (invMixColumn t0 t1 t2 t3).1 < 256 ∧ (invMixColumn t0 t1 t2 t3).2.1 < 256 ∧
    (invMixColumn t0 t1 t2 t3).2.2.1 < 256 ∧ (invMixColumn t0 t1 t2 t3).2.2.2 < 256 :=
  ⟨xor_lt_256 (xor_lt_256 (xor_lt_256 (gmul_lt 14 t0) (gmul_lt 11 t1)) (gmul_lt 13 t2))
      (gmul_lt 9 t3),
   xor_lt_256 (xor_lt_256 (xor_lt_256 (gmul_lt 9 t0) (gmul_lt 14 t1)) (gmul_lt 11 t2))
      (gmul_lt 13 t3),
   xor_lt_256 (xor_lt_256 (xor_lt_256 (gmul_lt 13 t0) (gmul_lt 9 t1)) (gmul_lt 14 t2))
      (gmul_lt 11 t3),
   xor_lt_256 (xor_lt_256 (xor_lt_256 (gmul_lt 11 t0) (gmul_lt 13 t1)) (gmul_lt 9 t2))
      (gmul_lt 14 t3)⟩

theorem mixColumns_valid (s : Block) (hs : BlockValid s) : BlockValid (mixColumns s) := by
  obtain ⟨h0, h1, h2, h3, h4, h5, h6, h7, h8, h9, h10, h11, h12, h13, h14, h15⟩ := hs
  cases s
  obtain ⟨a0, a1, a2, a3⟩ := mixColumn_valid _ _ _ _ h0 h1 h2 h3
  obtain ⟨b0, b1, b2, b3⟩ := mixColumn_valid _ _ _ _ h4 h5 h6 h7
  obtain ⟨c0, c1, c2, c3⟩ := mixColumn_valid _ _ _ _ h8 h9 h10 h11
  obtain ⟨d0, d1, d2, d3⟩ := mixColumn_valid _ _ _ _ h12 h13 h14 h15
  exact ⟨a0, a1, a2, a3, b0, b1, b2, b3, c0, c1, c2, c3, d0, d1, d2, d3⟩

theorem invMixColumns_valid (s : Block) : BlockValid (invMixColumns s) := by
  cases s
  rename_i t0 t1 t2 t3 t4 t5 t6 t7 t8 t9 t10 t11 t12 t13 t14 t15
  obtain ⟨a0, a1, a2, a3⟩ := invMixColumn_valid t0 t1 t2 t3
  obtain ⟨b0, b1, b2, b3⟩ := invMixColumn_valid t4 t5 t6 t7
  obtain ⟨c0, c1, c2, c3⟩ := invMixColumn_valid t8 t9 t10 t11
  obtain ⟨d0, d1, d2, d3⟩ := invMixColumn_valid t12 t13 t14 t15
  exact ⟨a0, a1, a2, a3, b0, b1, b2, b3, c0, c1, c2, c3, d0, d1, d2, d3⟩

/-! ### The round loops cancel -/

theorem decRounds_cons (x k t : Block) (ts : List Block) :
    decRounds x (k :: t :: ts)
      = decRounds (invMixColumns (addRoundKey (invSubBytes (invShiftRows x)) k)) (t :: ts) := rfl

theorem encRounds_cons (x k t : Block) (ts : List Block) :
    encRounds x (k :: t :: ts)
      = encRounds (addRoundKey (mixColumns (shiftRows (subBytes x))) k) (t :: ts) := rfl

/-- Running the decryption rounds over the reversed middle keys unwinds the
encryption rounds, leaving the final-round prefix. -/
theorem cancel_main : ∀ (ms : List Block) (s kl : Block) (tail : List Block),
    tail ≠ [] → BlockValid s → (∀ k ∈ ms, BlockValid k) →
    decRounds (addRoundKey (encRounds s (ms ++ [kl])) kl) (ms.reverse ++ tail)
      = decRounds (shiftRows (subBytes s)) tail := by
  intro ms
  induction ms with
  | nil =>
    intro s kl tail _ _ _
    show decRounds (addRoundKey (addRoundKey (shiftRows (subBytes s)) kl) kl) tail
        = decRounds (shiftRows (subBytes s)) tail
    rw [addRoundKey_addRoundKey]
  | cons k ms' ih =>
    intro s kl tail htail hs hks
    have hk : BlockValid k := hks k (by simp)
    have hms' : ∀ x ∈ ms', BlockValid x := fun x hx => hks x (by simp [hx])
    have hs' : BlockValid (addRoundKey (mixColumns (shiftRows (subBytes s))) k) :=
      addRoundKey_valid _ _ (mixColumns_valid _ (shiftRows_valid _ (subBytes_valid s))) hk
    show decRounds (addRoundKey (encRounds s ((k :: ms') ++ [kl])) kl)
        ((k :: ms').reverse ++ tail) = decRounds (shiftRows (subBytes s)) tail
    have hstep : encRounds s ((k :: ms') ++ [kl])
        = encRounds (addRoundKey (mixColumns (shiftRows (subBytes s))) k) (ms' ++ [kl]) := by
      cases ms' <;> rfl
    rw [hstep]
    have hrev : (k :: ms').reverse ++ tail = ms'.reverse ++ (k :: tail) := by simp
    rw [hrev]
    rw [ih _ kl (k :: tail) (by simp) hs' hms']
    cases tail with
    | nil => exact absurd rfl htail
    | cons t ts =>
      rw [decRounds_cons]
      rw [invShiftRows_shiftRows, invSubBytes_subBytes _ hs', addRoundKey_addRoundKey,
        invMixColumns_mixColumns _ (shiftRows_valid _ (subBytes_valid s))]

/-- Block decryption inverts block encryption under any shared list of
byte-valid round keys. -/
theorem decryptWithKeys_encryptWithKeys (p : Block) (rks : List Block)
    (hp : BlockValid p) (hk : ∀ k ∈ rks, BlockValid k) :
    decryptWithKeys (encryptWithKeys p rks) rks = p := by
  cases rks with
  | nil => rfl
  | cons k0 rest =>
    have hk0 : BlockValid k0 := hk k0 (by simp)
    rcases rest.eq_nil_or_concat with hrest | ⟨ms, kl, hrest⟩
    · subst hrest
      show decryptWithKeys (addRoundKey p k0) [k0] = p
      show addRoundKey (addRoundKey p k0) k0 = p
      exact addRoundKey_addRoundKey p k0
    · rw [List.concat_eq_append] at hrest
      subst hrest
      have hkl : BlockValid kl := hk kl (by simp)
      have hms : ∀ x ∈ ms, BlockValid x := fun x hx => hk x (by simp [hx])
      show decryptWithKeys (encRounds (addRoundKey p k0) (ms ++ [kl])) (k0 :: (ms ++ [kl])) = p
      unfold decryptWithKeys
      have hrev : (k0 :: (ms ++ [kl])).reverse = kl :: (ms.reverse ++ [k0]) := by simp
      rw [hrev]
      show decRounds (addRoundKey (encRounds (addRoundKey p k0) (ms ++ [kl])) kl)
          (ms.reverse ++ [k0]) = p
      rw [cancel_main ms (addRoundKey p k0) kl [k0] (by simp)
        (addRoundKey_valid _ _ hp hk0) hms]
      show addRoundKey (invSubBytes (invShiftRows (shiftRows (subBytes (addRoundKey p k0)))))
          k0 = p
      rw [invShiftRows_shiftRows, invSubBytes_subBytes _ (addRoundKey_valid _ _ hp hk0),
        addRoundKey_addRoundKey]

/-! ### Key expansion produces byte-valid round keys -/

theorem word_getD_valid (ws : List Word) (h : ∀ w ∈ ws, WordValid w) (n : Nat) :
    WordValid (ws.getD n ⟨0, 0, 0, 0⟩) := by
  by_cases hn : n < ws.length
  · rw [List.getD_eq_getElem ws _ hn]
    exact h _ (List.getElem_mem hn)
  · rw [List.getD_eq_default]
    · exact ⟨by norm_num, by norm_num, by norm_num, by norm_num⟩
    · omega

theorem rcon_lt (n : Nat) : rcon n < 256 := by
  by_cases h : n < 16
  · revert h
    have : ∀ m < 16, rcon m < 256 := by decide
    exact this n
  · unfold rcon
    rw [List.getD_eq_default]
    · norm_num
    · have : RCON.length = 16 := by decide
      omega

theorem subWord_valid (w : Word) : WordValid (subWord w) :=
  ⟨sbox_lt _, sbox_lt _, sbox_lt _, sbox_lt _⟩

theorem xorWord_valid (a b : Word) (ha : WordValid a) (hb : WordValid b) :
    WordValid (xorWord a b) :=
  ⟨xor_lt_256 ha.1 hb.1, xor_lt_256 ha.2.1 hb.2.1, xor_lt_256 ha.2.2.1 hb.2.2.1,
   xor_lt_256 ha.2.2.2 hb.2.2.2⟩

theorem nextWord_valid (nk : Nat) (ws : List Word) (h : ∀ w ∈ ws, WordValid w) :
    WordValid (nextWord nk ws) := by
  unfold nextWord
  apply xorWord_valid _ _ (word_getD_valid ws h _)
  split
  · have hs := subWord_valid (rotWord (ws.getD (ws.length - 1) ⟨0, 0, 0, 0⟩))
    exact ⟨xor_lt_256 hs.1 (rcon_lt _), hs.2.1, hs.2.2.1, hs.2.2.2⟩
  · split
    · exact subWord_valid _
    · exact word_getD_valid ws h _

theorem expandWords_valid (nk : Nat) : ∀ (n : Nat) (ws : List Word),
    (∀ w ∈ ws, WordValid w) → ∀ w ∈ expandWords nk ws n, WordValid w := by
  intro n
  induction n with
  | zero => intro ws h w hw; exact h w hw
  | succ m ih =>
    intro ws h w hw
    refine ih (ws ++ [nextWord nk ws]) ?_ w hw
    intro x hx
    rcases List.mem_append.mp hx with hx1 | hx2
    · exact h x hx1
    · rw [List.mem_singleton.mp hx2]
      exact nextWord_valid nk ws h

theorem keyWords_valid : ∀ (key : List Nat), (∀ b ∈ key, b < 256) →
    ∀ w ∈ keyWords key, WordValid w := by
  intro key
  induction key using keyWords.induct with
  | case1 a b c d rest ih =>
    intro h w hw
    unfold keyWords at hw
    rcases List.mem_cons.mp hw with rfl | hw'
    · exact ⟨h a (by simp), h b (by simp), h c (by simp), h d (by simp)⟩
    · exact ih (fun x hx => h x (by simp [keyWords] at hw' ⊢; tauto)) w hw'
  | case2 key hne =>
    intro _ w hw
    unfold keyWords at hw
    split at hw
    · exact (hne _ _ _ _ _ rfl).elim
    · exact absurd hw (by simp)

theorem blocksOfWords_valid : ∀ (ws : List Word), (∀ w ∈ ws, WordValid w) →
    ∀ b ∈ blocksOfWords ws, BlockValid b := by
  intro ws
  induction ws using blocksOfWords.induct with
  | case1 a b c d rest ih =>
    intro h x hx
    unfold blocksOfWords at hx
    rcases List.mem_cons.mp hx with rfl | hx'
    · obtain ⟨a0, a1, a2, a3⟩ := h a (by simp)
      obtain ⟨b0, b1, b2, b3⟩ := h b (by simp)
      obtain ⟨c0, c1, c2, c3⟩ := h c (by simp)
      obtain ⟨d0, d1, d2, d3⟩ := h d (by simp)
      exact ⟨a0, a1, a2, a3, b0, b1, b2, b3, c0, c1, c2, c3, d0, d1, d2, d3⟩
    · exact ih (fun y hy => h y (by simp; tauto)) x hx'
  | case2 ws hne =>
    intro _ x hx
    unfold blocksOfWords at hx
    split at hx
    · exact (hne _ _ _ _ _ rfl).elim
    · exact absurd hx (by simp)

theorem keyExpansion_valid (key : List Nat) (params : KeyParams)
    (h : ∀ b ∈ key, b < 256) : ∀ k ∈ keyExpansion key params, BlockValid k := by
  unfold keyExpansion
  exact blocksOfWords_valid _
    (expandWords_valid params.nk _ (keyWords key) (keyWords_valid key h))

/-! ### Block round trip through the real key schedule -/

theorem aesBlock_roundtrip (p : Block) (key : List Nat) (hp : BlockValid p)
    (hkey : ∀ b ∈ key, b < 256)
    (hlen : key.length = 16 ∨ key.length = 24 ∨ key.length = 32) :
    (aesEncryptBlock p key).bind (fun c => aesDecryptBlock c key) = .ok p := by
  have hparams : ∃ params, getKeyParams key.length = .ok params := by
    rcases hlen with h | h | h <;> rw [h] <;> exact ⟨_, rfl⟩
  obtain ⟨params, hparams⟩ := hparams
  unfold aesEncryptBlock aesDecryptBlock
  rw [hparams]
  show Except.ok (decryptWithKeys (encryptWithKeys p (keyExpansion key params))
    (keyExpansion key params)) = .ok p
  rw [decryptWithKeys_encryptWithKeys p _ hp (keyExpansion_valid key params hkey)]

/-! ### Blocks of a byte list -/

theorem cons16_of_length (l : List Nat) (h : 16 ≤ l.length) :
    ∃ a0 a1 a2 a3 a4 a5 a6 a7 a8 a9 a10 a11 a12 a13 a14 a15 rest,
      l = a0 :: a1 :: a2 :: a3 :: a4 :: a5 :: a6 :: a7 :: a8 :: a9 :: a10 :: a11 :: a12 ::
        a13 :: a14 :: a15 :: rest := by
  rcases l with _ | ⟨a0, l⟩
  · simp at h
  rcases l with _ | ⟨a1, l⟩
  · simp at h
  rcases l with _ | ⟨a2, l⟩
  · simp at h
  rcases l with _ | ⟨a3, l⟩
  · simp at h
  rcases l with _ | ⟨a4, l⟩
  · simp at h
  rcases l with _ | ⟨a5, l⟩
  · simp at h
  rcases l with _ | ⟨a6, l⟩
  · simp at h
  rcases l with _ | ⟨a7, l⟩
  · simp at h
  rcases l with _ | ⟨a8, l⟩
  · simp at h
  rcases l with _ | ⟨a9, l⟩
  · simp at h
  rcases l with _ | ⟨a10, l⟩
  · simp at h
  rcases l with _ | ⟨a11, l⟩
  · simp at h
  rcases l with _ | ⟨a12, l⟩
  · simp at h
  rcases l with _ | ⟨a13, l⟩
  · simp at h
  rcases l with _ | ⟨a14, l⟩
  · simp at h
  rcases l with _ | ⟨a15, l⟩
  · simp at h
  exact ⟨a0, a1, a2, a3, a4, a5, a6, a7, a8, a9, a10, a11, a12, a13, a14, a15, l, rfl⟩

theorem toBlocks_exists : ∀ (n : Nat) (l : List Nat), l.length ≤ n → l.length % 16 = 0 →
    ∃ bs, toBlocks l = some bs ∧ fromBlocks bs = l := by
  intro n
  induction n using Nat.strong_induction_on with
  | _ n ih =>
    intro l hlen hmod
    rcases l with _ | ⟨a, l0⟩
    · exact ⟨[], rfl, rfl⟩
    · have h16 : 16 ≤ (a :: l0).length := by
        have := (a :: l0).length
        by_contra hlt
        push_neg at hlt
        have h1 : (a :: l0).length ≠ 0 := by simp
        omega
      obtain ⟨a0, a1, a2, a3, a4, a5, a6, a7, a8, a9, a10, a11, a12, a13, a14, a15, rest,
        hdecomp⟩ := cons16_of_length _ h16
      have hrest_len : rest.length % 16 = 0 := by
        have : (a :: l0).length = 16 + rest.length := by rw [hdecomp]; simp; omega
        omega
      have hrest_le : rest.length < n := by
        have h1 : (a :: l0).length = 16 + rest.length := by rw [hdecomp]; simp; omega
        omega
      obtain ⟨bs, hbs, hfrom⟩ := ih rest.length hrest_le rest (le_refl _) hrest_len
      refine ⟨⟨a0, a1, a2, a3, a4, a5, a6, a7, a8, a9, a10, a11, a12, a13, a14, a15⟩ :: bs,
        ?_, ?_⟩
      · rw [hdecomp]
        show (toBlocks rest).map _ = _
        rw [hbs]
        rfl
      · show blockToList _ ++ fromBlocks bs = _
        rw [hfrom, hdecomp]
        rfl

theorem toBlocks_fromBlocks : ∀ bs : List Block, toBlocks (fromBlocks bs) = some bs := by
  intro bs
  induction bs with
  | nil => rfl
  | cons b rest ih =>
    cases b
    show (toBlocks (fromBlocks rest)).map _ = _
    rw [ih]
    rfl

theorem fromBlocks_length (bs : List Block) : (fromBlocks bs).length = 16 * bs.length := by
  induction bs with
  | nil => rfl
  | cons b rest ih =>
    show (blockToList b ++ fromBlocks rest).length = _
    rw [List.length_append, ih]
    cases b
    simp [blockToList]
    omega

theorem blockToList_valid_rev (b : Block) (h : ∀ x ∈ blockToList b, x < 256) :
    BlockValid b := by
  cases b
  exact ⟨h _ (by simp [blockToList]), h _ (by simp [blockToList]), h _ (by simp [blockToList]),
    h _ (by simp [blockToList]), h _ (by simp [blockToList]), h _ (by simp [blockToList]),
    h _ (by simp [blockToList]), h _ (by simp [blockToList]), h _ (by simp [blockToList]),
    h _ (by simp [blockToList]), h _ (by simp [blockToList]), h _ (by simp [blockToList]),
    h _ (by simp [blockToList]), h _ (by simp [blockToList]), h _ (by simp [blockToList]),
    h _ (by simp [blockToList])⟩

/-- Every block of a byte-valid flat list is byte-valid. -/
theorem fromBlocks_valid_rev (bs : List Block) (h : ∀ x ∈ fromBlocks bs, x < 256) :
    ∀ blk ∈ bs, BlockValid blk := by
  induction bs with
  | nil => intro blk hblk; exact absurd hblk (by simp)
  | cons b rest ih =>
    intro blk hblk
    have hsplit : fromBlocks (b :: rest) = blockToList b ++ fromBlocks rest := rfl
    rw [hsplit] at h
    rcases List.mem_cons.mp hblk with rfl | hblk'
    · exact blockToList_valid_rev blk (fun x hx => h x (by simp [hx]))
    · exact ih (fun x hx => h x (by simp [hx])) blk hblk'

/-! ### PKCS#7 pad/unpad round trip -/

theorem padPKCS7_length (d : List Nat) :
    (padPKCS7 d).length = d.length + (16 - d.length % 16) := by
  unfold padPKCS7
  simp

theorem padPKCS7_mod (d : List Nat) : (padPKCS7 d).length % 16 = 0 := by
  rw [padPKCS7_length]
  have := Nat.mod_lt d.length (y := 16) (by norm_num)
  omega

theorem padPKCS7_valid (d : List Nat) (h : ∀ b ∈ d, b < 256) :
    ∀ b ∈ padPKCS7 d, b < 256 := by
  intro b hb
  unfold padPKCS7 at hb
  rcases List.mem_append.mp hb with h1 | h2
  · exact h b h1
  · have := List.eq_of_mem_replicate h2
    subst this
    have := Nat.mod_lt d.length (y := 16) (by norm_num)
    omega

/-- Unpadding removes exactly a well-formed trailing pad block. -/
theorem unpadPKCS7_append_replicate (d : List Nat) (n : Nat) (h1 : 1 ≤ n) (h16 : n ≤ 16)
    (hmod : (d.length + n) % 16 = 0) :
    unpadPKCS7 (d ++ List.replicate n n) = .ok d := by
  have hLlen : (d ++ List.replicate n n).length = d.length + n := by simp
  have hlast : (d ++ List.replicate n n).getD ((d ++ List.replicate n n).length - 1) 0 = n := by
    have hidx : (d ++ List.replicate n n).length - 1 = d.length + (n - 1) := by
      rw [hLlen]; omega
    rw [hidx, List.getD_append_right _ _ _ _ (by omega), Nat.add_sub_cancel_left,
      List.getD_eq_getElem _ _ (by simpa using by omega : n - 1 < (List.replicate n n).length)]
    simp
  unfold unpadPKCS7
  rw [if_neg (by rw [hLlen]; omega)]
  rw [hlast, if_neg (by omega)]
  have hall : (List.range' ((d ++ List.replicate n n).length - n) n).all
      (fun i => (d ++ List.replicate n n).getD i 0 == n) = true := by
    rw [List.all_eq_true]
    intro i hi
    have hrange := List.mem_range'_1.mp hi
    rw [hLlen] at hrange
    have hige : d.length ≤ i := by omega
    have hlt2 : i - d.length < (List.replicate n n).length := by simp; omega
    rw [List.getD_append_right _ _ _ _ hige, List.getD_eq_getElem _ _ hlt2]
    simp
  rw [if_pos hall, hLlen]
  have : d.length + n - n = d.length := by omega
  rw [this, List.take_left]

theorem unpadPKCS7_padPKCS7 (d : List Nat) : unpadPKCS7 (padPKCS7 d) = .ok d := by
  have hmodlt : d.length % 16 < 16 := Nat.mod_lt _ (by norm_num)
  have hpad : padPKCS7 d
      = d ++ List.replicate (16 - d.length % 16) (16 - d.length % 16) := rfl
  rw [hpad]
  apply unpadPKCS7_append_replicate d _ (by omega) (by omega) (by omega)

/-! ### Message-level AES round trip -/

theorem mapM_ok {α β : Type} (bs : List α) (f : α → β) :
    bs.mapM (fun b => (Except.ok (f b) : Except String β)) = .ok (bs.map f) := by
  rw [← List.mapM'_eq_mapM]
  induction bs with
  | nil => rfl
  | cons b r ih =>
    simp only [List.mapM', ih, List.map_cons]
    rfl

theorem aesEncryptBlock_ok (b : Block) (key : List Nat) (params : KeyParams)
    (hparams : getKeyParams key.length = .ok params) :
    aesEncryptBlock b key = .ok (encryptWithKeys b (keyExpansion key params)) := by
  unfold aesEncryptBlock
  rw [hparams]
  rfl

theorem aesDecryptBlock_ok (b : Block) (key : List Nat) (params : KeyParams)
    (hparams : getKeyParams key.length = .ok params) :
    aesDecryptBlock b key = .ok (decryptWithKeys b (keyExpansion key params)) := by
  unfold aesDecryptBlock
  rw [hparams]
  rfl

/-- AES message-level round trip: for any byte sequence (any length,
including empty and non-block-aligned) and any byte key of length 16, 24 or
32, decryption inverts encryption. -/
theorem aes_roundtrip (data key : List Nat) (hdata : ∀ b ∈ data, b < 256)
    (hkey : ∀ b ∈ key, b < 256)
    (hlen : key.length = 16 ∨ key.length = 24 ∨ key.length = 32) :
    (aesEncrypt data key).bind (fun ct => aesDecrypt ct key) = .ok data := by
  have hparams : ∃ params, getKeyParams key.length = .ok params := by
    rcases hlen with h | h | h <;> rw [h] <;> exact ⟨_, rfl⟩
  obtain ⟨params, hparams⟩ := hparams
  obtain ⟨bs, hbs, hfrom⟩ := toBlocks_exists (padPKCS7 data).length (padPKCS7 data)
    (le_refl _) (padPKCS7_mod data)
  have hbsvalid : ∀ blk ∈ bs, BlockValid blk :=
    fromBlocks_valid_rev bs (by rw [hfrom]; exact padPKCS7_valid data hdata)
  have hence : aesEncrypt data key
      = .ok (fromBlocks (bs.map (fun b => encryptWithKeys b (keyExpansion key params)))) := by
    unfold aesEncrypt
    rw [hbs]
    show (bs.mapM (fun b => aesEncryptBlock b key)).bind
        (fun encs => Except.ok (fromBlocks encs)) = _
    have heq : (fun b => aesEncryptBlock b key)
        = (fun b => Except.ok (encryptWithKeys b (keyExpansion key params))) := by
      funext b
      exact aesEncryptBlock_ok b key params hparams
    rw [heq, mapM_ok]
    rfl
  rw [hence]
  show aesDecrypt (fromBlocks (bs.map (fun b => encryptWithKeys b (keyExpansion key params))))
    key = .ok data
  set encBs := bs.map (fun b => encryptWithKeys b (keyExpansion key params)) with hencBs
  have hctlen : (fromBlocks encBs).length % 16 = 0 := by
    rw [fromBlocks_length]
    omega
  unfold aesDecrypt
  rw [if_neg (by omega)]
  rw [toBlocks_fromBlocks]
  show (encBs.mapM (fun b => aesDecryptBlock b key)).bind
      (fun decs => unpadPKCS7 (fromBlocks decs)) = .ok data
  have heq : (fun b => aesDecryptBlock b key)
      = (fun b => Except.ok (decryptWithKeys b (keyExpansion key params))) := by
    funext b
    exact aesDecryptBlock_ok b key params hparams
  rw [heq, mapM_ok]
  show unpadPKCS7 (fromBlocks (encBs.map
    (fun b => decryptWithKeys b (keyExpansion key params)))) = .ok data
  have hdecenc : encBs.map (fun b => decryptWithKeys b (keyExpansion key params)) = bs := by
    rw [hencBs, List.map_map]
    have hcongr : bs.map ((fun b => decryptWithKeys b (keyExpansion key params)) ∘
        (fun b => encryptWithKeys b (keyExpansion key params))) = bs.map id := by
      apply List.map_congr_left
      intro b hb
      exact decryptWithKeys_encryptWithKeys b _ (hbsvalid b hb)
        (keyExpansion_valid key params hkey)
    rw [hcongr, List.map_id]
  rw [hdecenc, hfrom, unpadPKCS7_padPKCS7]

/-! ### UTF-8 encoded bytes are bytes -/

theorem char_toNat_lt (c : Char) : c.toNat < 1114112 := by
  rcases c.valid with h | ⟨_, h2⟩
  · show c.val.toNat < 1114112
    have : c.val.toNat < 0xD800 := h
    omega
  · exact h2

theorem or_lt_256 {a b : Nat} (ha : a < 256) (hb : b < 256) : a ||| b < 256 := by
  have := Nat.or_lt_two_pow (n := 8) ha hb
  simpa using this

theorem and_le_63 (n : Nat) : n &&& 0x3F < 256 := by
  have : n &&& 0x3F ≤ 0x3F := Nat.and_le_right
  omega

theorem utf8EncodeChar_valid (c : Char) : ∀ b ∈ utf8EncodeChar c, b < 256 := by
  have hc := char_toNat_lt c
  unfold utf8EncodeChar
  split
  · intro b hb
    rw [List.mem_singleton.mp hb]
    rename_i h
    omega
  · split
    · intro b hb
      rename_i h1 h2
      have hs : c.toNat >>> 6 < 256 := by
        rw [Nat.shiftRight_eq_div_pow]
        omega
      rcases List.mem_cons.mp hb with rfl | hb'
      · exact or_lt_256 (by norm_num) hs
      · rw [List.mem_singleton.mp hb']
        exact or_lt_256 (by norm_num) (and_le_63 _)
    · split
      · intro b hb
        have hs : c.toNat >>> 12 < 256 := by
          rw [Nat.shiftRight_eq_div_pow]
          omega
        rcases List.mem_cons.mp hb with rfl | hb'
        · exact or_lt_256 (by norm_num) hs
        rcases List.mem_cons.mp hb' with rfl | hb''
        · exact or_lt_256 (by norm_num) (and_le_63 _)
        · rw [List.mem_singleton.mp hb'']
          exact or_lt_256 (by norm_num) (and_le_63 _)
      · intro b hb
        have hs : c.toNat >>> 18 < 256 := by
          rw [Nat.shiftRight_eq_div_pow]
          omega
        rcases List.mem_cons.mp hb with rfl | hb'
        · exact or_lt_256 (by norm_num) hs
        rcases List.mem_cons.mp hb' with rfl | hb''
        · exact or_lt_256 (by norm_num) (and_le_63 _)
        rcases List.mem_cons.mp hb'' with rfl | hb'''
        · exact or_lt_256 (by norm_num) (and_le_63 _)
        · rw [List.mem_singleton.mp hb''']
          exact or_lt_256 (by norm_num) (and_le_63 _)

theorem stringToUint8Array_valid (s : List Char) : ∀ b ∈ stringToUint8Array s, b < 256 := by
  intro b hb
  unfold stringToUint8Array at hb
  obtain ⟨c, _, hbc⟩ := List.mem_flatMap.mp hb
  exact utf8EncodeChar_valid c b hbc

/-- A validator-accepted AES key string UTF-8-encodes to 16, 24 or 32 bytes. -/
theorem validateAesKey_spec (key : List Char) (h : validateAesKey key = true) :
    (stringToUint8Array key).length = 16 ∨ (stringToUint8Array key).length = 24 ∨
    (stringToUint8Array key).length = 32 := by
  unfold validateAesKey at h
  simp only [Bool.or_eq_true, beq_iff_eq] at h
  tauto

/-! ### Pipeline walk lemmas -/

/-- Keys used by the concrete pipeline examples (Caesar shift 3, Affine
(5,8)). -/
def demoKeys : Keys := ⟨3, 5, 8, [], []⟩

theorem runSteps_append (keys : Keys) (mode : Mode) :
    ∀ (l1 l2 : List (List Char)) (text : List Char) (trace : List (List Char)),
    runSteps keys mode (l1 ++ l2) text trace
      = match runSteps keys mode l1 text trace with
        | (tr, .ok v) => runSteps keys mode l2 v tr
        | (tr, .error e) => (tr, .error e) := by
  intro l1
  induction l1 with
  | nil => intro l2 text trace; rfl
  | cons id rest ih =>
    intro l2 text trace
    show (match applyAlgorithm id mode keys text with
      | none => (trace, Except.error PipeError.lookupFailure)
      | some (.error m) => (trace, .error (.stepFailure m))
      | some (.ok out) => runSteps keys mode (rest ++ l2) out (trace ++ [out])) = _
    rcases happ : applyAlgorithm id mode keys text with _ | he | hout
    · simp only [runSteps, happ]
    · simp only [runSteps, happ]
    · simp only [runSteps, happ]
      exact ih l2 _ _

/-- An algorithm id outside the registry makes every lookup fail. -/
theorem applyAlgorithm_none (id : List Char) (hid : id ∉ algorithmIds)
    (mode : Mode) (keys : Keys) (input : List Char) :
    applyAlgorithm id mode keys input = none := by
  unfold algorithmIds at hid
  simp only [List.mem_cons, List.mem_singleton, not_or] at hid
  obtain ⟨h1, h2, h3, h4⟩ := hid
  unfold applyAlgorithm
  rw [if_neg h1, if_neg h2, if_neg h3]
  exact if_neg (by simpa using h4)

/-! ### Claim theorems -/

/-- C1: for every registry algorithm (Caesar, Affine, Monoalphabetic, AES)
and every key accepted by its validator, decrypting the encryption of any
input returns the input: classical ciphers over every string (letters
transform, everything else passes through), AES over every byte sequence
under the UTF-8 bytes of a validator-accepted key string. -/
theorem c1_registry_roundtrip :
    (∀ s : Int, validateCaesarKey s = true → ∀ text : List Char,
      caesarDecrypt (caesarEncrypt text s) s = text) ∧
    (∀ a b : Int, validateAffineKey a b = true → ∀ text : List Char,
      (affineEncrypt text a b).map (fun ct => affineDecrypt ct a b) = .ok text) ∧
    (∀ key : List Char, validateMonoalphabeticKey key = true → ∀ text : List Char,
      (monoalphabeticEncrypt text key).bind (fun ct => monoalphabeticDecrypt ct key)
        = .ok text) ∧
    (∀ key : List Char, validateAesKey key = true → ∀ data : List Nat,
      (∀ b ∈ data, b < 256) →
      (aesEncrypt data (stringToUint8Array key)).bind
        (fun ct => aesDecrypt ct (stringToUint8Array key)) = .ok data) :=
  ⟨caesar_roundtrip,
   affine_roundtrip,
   fun key hv text => mono_roundtrip key hv text,
   fun key hv data hdata =>
     aes_roundtrip data (stringToUint8Array key) hdata
       (stringToUint8Array_valid key) (validateAesKey_spec key hv)⟩

/-- Witness for C1: the round trip evaluated at one concrete
validator-accepted key and input per algorithm. -/
theorem c1_registry_roundtrip_witness :
    caesarDecrypt (caesarEncrypt "Hello, World!".data 3) 3 = "Hello, World!".data ∧
    (affineEncrypt "Attack at Dawn".data 5 8).map (fun ct => affineDecrypt ct 5 8)
      = .ok "Attack at Dawn".data ∧
    (monoalphabeticEncrypt "Crypto!".data "QWERTYUIOPASDFGHJKLZXCVBNM".data).bind
      (fun ct => monoalphabeticDecrypt ct "QWERTYUIOPASDFGHJKLZXCVBNM".data)
      = .ok "Crypto!".data ∧
    (aesEncrypt [0, 1, 2, 255] (stringToUint8Array "AESSecureKey1234".data)).bind
      (fun ct => aesDecrypt ct (stringToUint8Array "AESSecureKey1234".data))
      = .ok [0, 1, 2, 255] :=
  ⟨c1_registry_roundtrip.1 3 (by decide) _,
   c1_registry_roundtrip.2.1 5 8 (by decide) _,
   c1_registry_roundtrip.2.2.1 "QWERTYUIOPASDFGHJKLZXCVBNM".data (by decide) _,
   c1_registry_roundtrip.2.2.2 "AESSecureKey1234".data (by decide) [0, 1, 2, 255] (by decide)⟩

/-- C2: the FIPS-197 test vector. Encrypting the all-zero 16-byte block
under the all-zero 16-byte key yields the block whose lowercase hex
rendering is 66e94bd4ef8a2c3b884cfa59ca342b2e. -/
theorem c2_fips_vector :
    aesEncryptBlock ⟨0, 0, 0, 0, 0, 0, 0, 0, 0, 0, 0, 0, 0, 0, 0, 0⟩ (List.replicate 16 0)
      = .ok ⟨0x66, 0xe9, 0x4b, 0xd4, 0xef, 0x8a, 0x2c, 0x3b,
             0x88, 0x4c, 0xfa, 0x59, 0xca, 0x34, 0x2b, 0x2e⟩ ∧
    uint8ArrayToHex (blockToList ⟨0x66, 0xe9, 0x4b, 0xd4, 0xef, 0x8a, 0x2c, 0x3b,
        0x88, 0x4c, 0xfa, 0x59, 0xca, 0x34, 0x2b, 0x2e⟩)
      = "66e94bd4ef8a2c3b884cfa59ca342b2e".data :=
  ⟨by rfl, by rfl⟩

/-- C9: Caesar shift normalisation. Any integer shift, negative or above
25, encrypts exactly like its ((s % 26) + 26) % 26 normalisation; the
concrete vector ABC+3 = DEF; shift 0 is the identity for both encrypt and
decrypt (decrypt at 0 running Caesar-encrypt with shift 26). -/
theorem c9_caesar_normalisation :
    (∀ (s : Int) (text : List Char),
      caesarEncrypt text s = caesarEncrypt text (((s.tmod 26) + 26).tmod 26)) ∧
    caesarEncrypt "ABC".data 3 = "DEF".data ∧
    (∀ text : List Char, caesarEncrypt text 0 = text) ∧
    (∀ text : List Char, caesarDecrypt text 0 = text) := by
  refine ⟨?_, by decide, ?_, ?_⟩
  · intro s text
    have h : ((((((s.tmod 26) + 26).tmod 26).tmod 26) + 26).tmod 26)
        = (((s.tmod 26) + 26).tmod 26) := by
      rw [caesarNorm_eq (((s.tmod 26) + 26).tmod 26), caesarNorm_eq s]
      omega
    unfold caesarEncrypt
    rw [h]
  · intro text
    show text.map (caesarShiftChar ((((0 : Int).tmod 26) + 26).tmod 26).toNat) = text
    have h0 : ((((0 : Int).tmod 26) + 26).tmod 26).toNat = 0 := by decide
    rw [h0]
    have : text.map (caesarShiftChar 0) = text.map id :=
      List.map_congr_left (fun c _ => caesarShiftChar_zero c)
    rw [this, List.map_id]
  · intro text
    show caesarEncrypt text (26 - (0 : Int).tmod 26) = text
    show text.map (caesarShiftChar ((((26 - (0 : Int).tmod 26).tmod 26) + 26).tmod 26).toNat)
      = text
    have h0 : ((((26 - (0 : Int).tmod 26).tmod 26) + 26).tmod 26).toNat = 0 := by decide
    rw [h0]
    have : text.map (caesarShiftChar 0) = text.map id :=
      List.map_congr_left (fun c _ => caesarShiftChar_zero c)
    rw [this, List.map_id]

/-- C10: both monoalphabetic transforms re-validate the key when executed:
a validator-rejected key makes encrypt and decrypt throw before touching
the text, and a successful run certifies the key was validator-accepted. -/
theorem c10_mono_revalidates :
    (∀ (key text : List Char), validateMonoalphabeticKey key = false →
      monoalphabeticEncrypt text key = .error "Invalid substitution key" ∧
      monoalphabeticDecrypt text key = .error "Invalid substitution key") ∧
    (∀ (key text out : List Char), monoalphabeticEncrypt text key = .ok out →
      validateMonoalphabeticKey key = true) ∧
    (∀ (key text out : List Char), monoalphabeticDecrypt text key = .ok out →
      validateMonoalphabeticKey key = true) := by
  have hval : ∀ key : List Char,
      validateMonoalphabeticKey (key.map Char.toUpper) = validateMonoalphabeticKey key :=
    validateMono_toUpper
  refine ⟨?_, ?_, ?_⟩
  · intro key text hfalse
    constructor
    · unfold monoalphabeticEncrypt
      rw [if_pos (by rw [hval, hfalse]; simp)]
    · unfold monoalphabeticDecrypt
      rw [if_pos (by rw [hval, hfalse]; simp)]
  · intro key text out hok
    by_contra hfalse
    have hfalse' : validateMonoalphabeticKey key = false := by
      cases h : validateMonoalphabeticKey key
      · rfl
      · exact absurd h hfalse
    unfold monoalphabeticEncrypt at hok
    rw [if_pos (by rw [hval, hfalse']; simp)] at hok
    exact absurd hok (by simp)
  · intro key text out hok
    by_contra hfalse
    have hfalse' : validateMonoalphabeticKey key = false := by
      cases h : validateMonoalphabeticKey key
      · rfl
      · exact absurd h hfalse
    unfold monoalphabeticDecrypt at hok
    rw [if_pos (by rw [hval, hfalse']; simp)] at hok
    exact absurd hok (by simp)

/-- Witness for C10: the 3-letter key "ABC" is validator-rejected and both
transforms throw on it; the accepted permutation runs and certifies its
validity. -/
theorem c10_mono_revalidates_witness :
    validateMonoalphabeticKey "ABC".data = false ∧
    (monoalphabeticEncrypt "HELLO".data "ABC".data = .error "Invalid substitution key" ∧
     monoalphabeticDecrypt "HELLO".data "ABC".data = .error "Invalid substitution key") ∧
    validateMonoalphabeticKey "QWERTYUIOPASDFGHJKLZXCVBNM".data = true :=
  ⟨by decide,
   c10_mono_revalidates.1 "ABC".data "HELLO".data (by decide),
   c10_mono_revalidates.2.1 "QWERTYUIOPASDFGHJKLZXCVBNM".data "AB".data "QW".data (by rfl)⟩

/-- C3: the composer applies encrypt-mode steps in list order and decrypt
mode walks the element-wise reversed list, each step using its own bound
key; concretely, the pipeline [Caesar(3), Affine(5,8)] on HELLO equals the
manual Caesar-then-Affine composition (GRAAP), and decrypt mode on GRAAP
with the same steps and keys reproduces HELLO. -/
theorem c3_pipeline_order :
    (∀ (text : List Char) (order : List (List Char)) (keys : Keys), order ≠ [] →
      runPipeline text order keys .decrypt = runSteps keys .decrypt order.reverse text [] ∧
      runPipeline text order keys .encrypt = runSteps keys .encrypt order text []) ∧
    (runPipeline "HELLO".data ["caesar".data, "affine".data] demoKeys .encrypt).2
      = .ok "GRAAP".data ∧
    affineEncrypt (caesarEncrypt "HELLO".data 3) 5 8 = .ok "GRAAP".data ∧
    (runPipeline "GRAAP".data ["caesar".data, "affine".data] demoKeys .decrypt).2
      = .ok "HELLO".data := by
  refine ⟨?_, by rfl, by rfl, by rfl⟩
  intro text order keys hne
  constructor
  · unfold runPipeline
    rw [if_neg (by simpa using hne)]
  · unfold runPipeline
    rw [if_neg (by simpa using hne)]

/-- Witness for C3: the general order clause applied to the concrete
two-step pipeline. -/
theorem c3_pipeline_order_witness :
    runPipeline "GRAAP".data ["caesar".data, "affine".data] demoKeys .decrypt
      = runSteps demoKeys .decrypt ["affine".data, "caesar".data] "GRAAP".data [] :=
  (c3_pipeline_order.1 "GRAAP".data ["caesar".data, "affine".data] demoKeys
    (by decide)).1

/-- C4 (divergence witness): unpadPKCS7 accepts a declared padding length
of zero and strips nothing, while the over-16 and mismatched-byte cases
are rejected as the spec says. The zero case contradicts the specified
PaddingError. -/
theorem c4_unpad_zero_accepted :
    unpadPKCS7 [1, 2, 3, 4, 5, 6, 7, 8, 9, 10, 11, 12, 13, 14, 15, 0]
      = .ok [1, 2, 3, 4, 5, 6, 7, 8, 9, 10, 11, 12, 13, 14, 15, 0] ∧
    unpadPKCS7 [1, 2, 3, 4, 5, 6, 7, 8, 9, 10, 11, 12, 13, 14, 15, 17]
      = .error "Invalid padding value" ∧
    unpadPKCS7 [1, 2, 3, 4, 5, 6, 7, 8, 9, 10, 11, 12, 13, 14, 15, 2]
      = .error "Invalid padding" :=
  ⟨by rfl, by rfl, by rfl⟩

/-- C5 (counterexample): engine failures ARE reported as in-band sentinel
text: affine decryption with the non-coprime a = 2 returns the string
"Error: 2 and 26 are not coprime" as its output, and the registry AES
decrypt entry returns a fixed apology string on failure. -/
theorem c5_inband_sentinel :
    affineDecrypt "B".data 2 0 = "Error: 2 and 26 are not coprime".data ∧
    aesRegistryDecrypt "00".data "AESSecureKey1234".data
      = "Decryption failed. Please check your key and ciphertext.".data :=
  ⟨by rfl, by rfl⟩

/-- C5 amended: an affine decrypt with a not coprime with 26 always
returns the in-band text "Error: (a) and 26 are not coprime" in place of
output, and any aesDecryptText failure surfaces as the registry's fixed
in-band failure message. -/
theorem c5_amended_sentinels :
    (∀ (a b : Int) (text : List Char), gcdJS a 26 ≠ 1 →
      affineDecrypt text a b
        = ("Error: " ++ (toString a ++ " and " ++ toString (26 : Int)
            ++ " are not coprime")).data) ∧
    (∀ (text key : List Char) (m : String), aesDecryptText text key = .error m →
      aesRegistryDecrypt text key
        = "Decryption failed. Please check your key and ciphertext.".data) := by
  constructor
  · intro a b text hg
    unfold affineDecrypt modInverse
    rw [if_pos hg]
  · intro text key m herr
    unfold aesRegistryDecrypt
    rw [herr]

/-- Witness for C5 amended: evaluated at a = 2 and at the length-2 hex
ciphertext (one byte, not block-aligned). -/
theorem c5_amended_sentinels_witness :
    affineDecrypt "XYZ".data 2 5 = ("Error: " ++ (toString (2 : Int) ++ " and "
      ++ toString (26 : Int) ++ " are not coprime")).data ∧
    aesRegistryDecrypt "00".data "k".data
      = "Decryption failed. Please check your key and ciphertext.".data :=
  ⟨c5_amended_sentinels.1 2 5 "XYZ".data (by decide),
   c5_amended_sentinels.2 "00".data "k".data
     "Ciphertext length must be a multiple of 16 bytes" (by rfl)⟩

/-- C6 (counterexample): an unknown id at the second position does NOT
fail before any transform executes: the first (Caesar) transform runs and
its output DE is recorded as partial step output before the lookup error
stops the run. -/
theorem c6_unknown_id_counterexample :
    (runPipeline "AB".data ["caesar".data, "bogus".data] demoKeys .encrypt).1
      = ["DE".data] ∧
    (runPipeline "AB".data ["caesar".data, "bogus".data] demoKeys .encrypt).2
      = .error .lookupFailure :=
  ⟨by rfl, by rfl⟩

/-- C6 amended: an unknown algorithm id makes the run stop with a lookup
failure when that step is reached (so no final result is ever delivered),
but the transforms of the steps before it have already executed and their
outputs stand as partial step output. -/
theorem c6_unknown_id_amended (keys : Keys) (mode : Mode) (id : List Char)
    (hid : id ∉ algorithmIds) :
    ∀ (pre post : List (List Char)) (text : List Char) (trace tr : List (List Char))
      (v : List Char),
    runSteps keys mode pre text trace = (tr, .ok v) →
    runSteps keys mode (pre ++ id :: post) text trace = (tr, .error .lookupFailure) := by
  intro pre post text trace tr v hpre
  rw [runSteps_append, hpre]
  show (match applyAlgorithm id mode keys v with
    | none => (tr, Except.error PipeError.lookupFailure)
    | some (.error m) => (tr, .error (.stepFailure m))
    | some (.ok out) => runSteps keys mode post out (tr ++ [out])) = _
  rw [applyAlgorithm_none id hid mode keys v]

/-- Witness for C6 amended: the Caesar-then-bogus pipeline of the
counterexample. -/
theorem c6_unknown_id_amended_witness :
    runSteps demoKeys .encrypt (["caesar".data] ++ "bogus".data :: []) "AB".data []
      = (["DE".data], .error .lookupFailure) :=
  c6_unknown_id_amended demoKeys .encrypt "bogus".data (by decide)
    ["caesar".data] [] "AB".data [] ["DE".data] "DE".data (by rfl)

/-- C7 (counterexample): a validator-rejected key does not cause the
pipeline to be rejected: with the invalid Caesar shift 99 the pipeline
still runs the Caesar transform and completes. -/
theorem c7_no_validation_counterexample :
    validateCaesarKey 99 = false ∧
    (runPipeline "A".data ["caesar".data] ⟨99, 5, 8, [], []⟩ .encrypt).2
      = .ok "V".data :=
  ⟨by decide, by rfl⟩

/-- C7 amended: the composer performs no key validation at all; every step
invokes its transform directly with its bound key, even when that key
fails the algorithm's validator. -/
theorem c7_no_validation_amended (keys : Keys) (text : List Char)
    (hinvalid : validateCaesarKey keys.caesar = false) :
    (runPipeline text ["caesar".data] keys .encrypt).2
      = .ok (caesarEncrypt text keys.caesar) := by
  rfl

/-- Witness for C7 amended: the invalid shift 99. -/
theorem c7_no_validation_amended_witness :
    (runPipeline "A".data ["caesar".data] ⟨99, 5, 8, [], []⟩ .encrypt).2
      = .ok (caesarEncrypt "A".data 99) :=
  c7_no_validation_amended ⟨99, 5, 8, [], []⟩ "A".data (by decide)

/-- C8 (divergence witness): getDefaultKey('aes') returns the literal
"AESSecureKey12345", which is 17 bytes of UTF-8 (not 16, despite the
source comment) and is rejected by validateAesKey. -/
theorem c8_default_aes_key :
    getDefaultKey [] "aes".data = some (.byteKey "AESSecureKey12345".data) ∧
    (stringToUint8Array "AESSecureKey12345".data).length = 17 ∧
    validateAesKey "AESSecureKey12345".data = false :=
  ⟨by rfl, by rfl, by decide⟩
